import Mathlib

/-!
Verification of the fastbfi bytecode compiler and execution engine.

The definitions below are a shallow embedding of the Rust sources:
  - src/lex.rs        : tokens and the one-byte classifier
  - src/compiler.rs   : instruction encoding and the compile pass
  - src/interpreter.rs: the dispatch engine over a growable tape

Machine integers are modelled as Nat with explicit moduli (u8 arithmetic
is mod 256, u32 addresses are bounded by 2^32, usize arithmetic wraps
mod 2^64).  Fallible operations return Except / explicit result values.
-/

set_option maxRecDepth 4000

namespace FastBfi

/-- Tokens produced by the lexer (src/lex.rs, enum Token).  The Rust Eof
token marks the end of the stream; here a token stream is a finite list
and Eof is represented by the end of the list. -/
inductive Token where
  | rAngle
  | lAngle
  | plus
  | minus
  | dot
  | comma
  | lBrack
  | rBrack
  | comment
  deriving DecidableEq, Repr

/-- Byte classifier of the lexer (src/lex.rs, Lexer::next): each byte of
the source is mapped to one token, anything unrecognized is a comment. -/
def lexByte (c : Char) : Token :=
  if c = '<' then .lAngle
  else if c = '>' then .rAngle
  else if c = '+' then .plus
  else if c = '-' then .minus
  else if c = '.' then .dot
  else if c = ',' then .comma
  else if c = '[' then .lBrack
  else if c = ']' then .rBrack
  else .comment

/-- The full token stream of a source text (src/lex.rs): the lexer walks
the source one unit at a time and classifies each.  The Rust lexer walks
UTF-8 bytes while this walks characters; the eight command characters
are ASCII, where the two coincide, and everything else is a comment
token that the compiler skips either way. -/
def lexStr (s : String) : List Token :=
  s.toList.map lexByte

/-- Instructions (src/compiler.rs, enum Inst), with the fixed
repr(usize) discriminants 0..8 used as the byte-code encoding. -/
inductive Inst where
  | incPtr
  | decPtr
  | inc
  | dec
  | out
  | inp
  | jz
  | jnz
  | halt
  deriving DecidableEq, Repr

/-- Byte-code representation of an instruction
(src/compiler.rs, Inst::to_bc = the enum discriminant). -/
def Inst.toBc : Inst → Nat
  | .incPtr => 0
  | .decPtr => 1
  | .inc => 2
  | .dec => 3
  | .out => 4
  | .inp => 5
  | .jz => 6
  | .jnz => 7
  | .halt => 8

/-- Decoding of a byte to an instruction (src/compiler.rs, Inst::from_bc);
returns none on an invalid representation. -/
def Inst.fromBc (x : Nat) : Option Inst :=
  if x = 0 then some .incPtr
  else if x = 1 then some .decPtr
  else if x = 2 then some .inc
  else if x = 3 then some .dec
  else if x = 4 then some .out
  else if x = 5 then some .inp
  else if x = 6 then some .jz
  else if x = 7 then some .jnz
  else if x = 8 then some .halt
  else none

/-- Size of the address type in bytes (src/compiler.rs, ADDR_SIZE). -/
def ADDR_SIZE : Nat := 4

/-- Number of values of the address type u32 (src/compiler.rs, Addr):
an address fits exactly when it is < U32. -/
def U32 : Nat := 4294967296

/-- Number of values of usize on the 64-bit targets the program is
built for (src/main.rs mentions aarch64): usize arithmetic wraps mod
this value. -/
def USIZE : Nat := 18446744073709551616

/-- Little-endian byte encoding of a u32 address
(src/compiler.rs, Addr::to_le_bytes at lines 128 and 134). -/
def addrToLeBytes (a : Nat) : List Nat :=
  [a % 256, a / 256 % 256, a / 65536 % 256, a / 16777216 % 256]

/-- The address stored right after a jump opcode at position p:
Addr::from_le_bytes of the four bytes bc[p+1..p+5]
(src/compiler.rs docs; src/interpreter.rs jz/jnz). -/
def addrAt (v : List Nat) (p : Nat) : Nat :=
  v.getD (p + 1) 0 + 256 * v.getD (p + 2) 0 +
    65536 * v.getD (p + 3) 0 + 16777216 * v.getD (p + 4) 0

/-- Failure cases of the compile pass.  The Rust function returns
Result<Vec<u8>, ()> and collapses all failures to Err(()); the
constructors here record which of the three distinct failure sites of
src/compiler.rs fired: the empty-stack pop at line 125, the end-of-input
check at line 157, and the two u32 conversions at lines 128/134.  The
spec names them UnmatchedLoopEnd, UnmatchedLoopStart, AddressOverflow. -/
inductive CompileError where
  | unmatchedLoopEnd
  | unmatchedLoopStart
  | addressOverflow
  deriving DecidableEq, Repr

/-- In-place patch of the 4 placeholder bytes that sit right before
offset a, models v[jump_addr - ADDR_SIZE..][..ADDR_SIZE]
.copy_from_slice(&jump_here) (src/compiler.rs lines 134-135). -/
def spliceAddr (v : List Nat) (a : Nat) (t : Nat) : List Nat :=
  v.take (a - ADDR_SIZE) ++ addrToLeBytes t ++ v.drop a

/-- The compile loop (src/compiler.rs, compile, lines 87-173): v is the
byte-code buffer built so far, jumpStack the jump-resolution stack.  The
Eof arms of the Rust match correspond to the empty token list. -/
def compileAux : List Token → List Nat → List Nat → Except CompileError (List Nat)
  | [], v, jumpStack =>
    match jumpStack with
    | [] => .ok (v ++ [Inst.halt.toBc])
    | _ :: _ => .error .unmatchedLoopStart
  | t :: ts, v, jumpStack =>
    match t with
    | .rAngle => compileAux ts (v ++ [Inst.incPtr.toBc]) jumpStack
    | .lAngle => compileAux ts (v ++ [Inst.decPtr.toBc]) jumpStack
    | .plus => compileAux ts (v ++ [Inst.inc.toBc]) jumpStack
    | .minus => compileAux ts (v ++ [Inst.dec.toBc]) jumpStack
    | .dot => compileAux ts (v ++ [Inst.out.toBc]) jumpStack
    | .comma => compileAux ts (v ++ [Inst.inp.toBc]) jumpStack
    | .comment => compileAux ts v jumpStack
    | .lBrack =>
      let v1 := v ++ [Inst.jz.toBc] ++ [42, 42, 42, 42]
      compileAux ts v1 (v1.length :: jumpStack)
    | .rBrack =>
      let v1 := v ++ [Inst.jnz.toBc]
      match jumpStack with
      | [] => .error .unmatchedLoopEnd
      | jumpAddr :: rest =>
        if jumpAddr < U32 then
          let v2 := v1 ++ addrToLeBytes jumpAddr
          if v2.length < U32 then
            compileAux ts (spliceAddr v2 jumpAddr v2.length) rest
          else .error .addressOverflow
        else .error .addressOverflow

/-- Converts lexer output into byte-code (src/compiler.rs, compile):
the loop starts with an empty buffer and an empty jump stack. -/
def compile (ts : List Token) : Except CompileError (List Nat) :=
  compileAux ts [] []

/-! ### The execution engine (src/interpreter.rs) -/

/-- Mutable state of the engine (src/interpreter.rs, struct Interpreter):
the byte-code slice is passed separately since it is immutable.  The two
I/O capabilities are modelled by the list of bytes the input capability
has yet to produce and the list of bytes handed to the output capability
so far. -/
structure EngineState where
  cursor : Nat
  ptr : Nat
  data : List Nat
  inputs : List Nat
  output : List Nat
  deriving DecidableEq, Repr

/-- The state the Interpreter constructor builds (src/interpreter.rs,
lines 8-21): cursor 0, pointer 0, empty tape. -/
def initState (inputs : List Nat) : EngineState :=
  { cursor := 0, ptr := 0, data := [], inputs := inputs, output := [] }

/-- Lazy growth of the tape (src/interpreter.rs, deref / deref_mut,
lines 182-198): if data.len() <= ptr, resize to ptr + 1 filling new
cells with 0; otherwise leave the tape unchanged. -/
def growTape (data : List Nat) (ptr : Nat) : List Nat :=
  if data.length ≤ ptr then data ++ List.replicate (ptr + 1 - data.length) 0 else data

/-- Outcome of dispatching one instruction.  crash models a Rust panic
inside the engine itself (out-of-bounds byte-code access or an invalid
opcode byte, both unwrap/indexing panics); inputFail models the input
capability aborting the run (the capability of src/main.rs panics via
unwrap when stdin is exhausted, which propagates through the engine). -/
inductive StepResult where
  | cont (s : EngineState)
  | halted (s : EngineState)
  | inputFail (s : EngineState)
  | crash
  deriving DecidableEq, Repr

/-- One round of the dispatch loop (src/interpreter.rs, dispatch and the
per-opcode handlers).  Reads the opcode under the cursor, performs the
handler's effect, and leaves the cursor on the next instruction; the
chained tail calls handler -> next -> dispatch of the Rust code are cut
at the point where the next opcode would be read.  usize increments wrap
mod USIZE; cell arithmetic wraps mod 256 (u8 wrapping_add/wrapping_sub).
In jz/jnz the address is read first and the cell is dereferenced after,
as in the source; in inp the input capability runs before the tape is
dereferenced (Rust assignments evaluate their right operand first). -/
def step (bc : List Nat) (s : EngineState) : StepResult :=
  if s.cursor < bc.length then
    match Inst.fromBc (bc.getD s.cursor 0) with
    | none => .crash
    | some .incPtr =>
      .cont { s with ptr := (s.ptr + 1) % USIZE, cursor := (s.cursor + 1) % USIZE }
    | some .decPtr =>
      .cont { s with ptr := (s.ptr + (USIZE - 1)) % USIZE, cursor := (s.cursor + 1) % USIZE }
    | some .inc =>
      .cont { s with
        data := (growTape s.data s.ptr).set s.ptr
          (((growTape s.data s.ptr).getD s.ptr 0 + 1) % 256),
        cursor := (s.cursor + 1) % USIZE }
    | some .dec =>
      .cont { s with
        data := (growTape s.data s.ptr).set s.ptr
          (((growTape s.data s.ptr).getD s.ptr 0 + 255) % 256),
        cursor := (s.cursor + 1) % USIZE }
    | some .out =>
      .cont { s with data := growTape s.data s.ptr,
                     output := s.output ++ [(growTape s.data s.ptr).getD s.ptr 0],
                     cursor := (s.cursor + 1) % USIZE }
    | some .inp =>
      match s.inputs with
      | [] => .inputFail s
      | b :: rest =>
        .cont { s with data := (growTape s.data s.ptr).set s.ptr (b % 256), inputs := rest,
                       cursor := (s.cursor + 1) % USIZE }
    | some .jz =>
      if s.cursor + 1 + ADDR_SIZE ≤ bc.length then
        if (growTape s.data s.ptr).getD s.ptr 0 = 0 then
          .cont { s with data := growTape s.data s.ptr, cursor := addrAt bc s.cursor }
        else
          .cont { s with data := growTape s.data s.ptr,
                         cursor := ((s.cursor + ADDR_SIZE) % USIZE + 1) % USIZE }
      else .crash
    | some .jnz =>
      if s.cursor + 1 + ADDR_SIZE ≤ bc.length then
        if (growTape s.data s.ptr).getD s.ptr 0 = 0 then
          .cont { s with data := growTape s.data s.ptr,
                         cursor := ((s.cursor + ADDR_SIZE) % USIZE + 1) % USIZE }
        else
          .cont { s with data := growTape s.data s.ptr, cursor := addrAt bc s.cursor }
      else .crash
    | some .halt => .halted s
  else .crash

/-- Outcome of a whole run. -/
inductive RunResult where
  | halted (s : EngineState)
  | inputFail (s : EngineState)
  | crash
  | outOfFuel (s : EngineState)
  deriving DecidableEq, Repr

/-- Fuelled unfolding of the dispatch loop (src/interpreter.rs, run):
the Rust loop runs until the halt handler returns or a panic aborts the
process; the fuel only bounds how many steps of that loop we inspect. -/
def runFuel (bc : List Nat) : Nat → EngineState → RunResult
  | 0, s => .outOfFuel s
  | n + 1, s =>
    match step bc s with
    | .cont t => runFuel bc n t
    | .halted t => .halted t
    | .inputFail t => .inputFail t
    | .crash => .crash

/-- The engine state carried by a run outcome, when one is carried. -/
def stateOf : RunResult → Option EngineState
  | .halted s => some s
  | .inputFail s => some s
  | .outOfFuel s => some s
  | .crash => none

/-! ### Instruction boundaries of a byte-code buffer -/

/-- How far the cursor moves past the instruction encoded by opcode
byte op: jump instructions carry an ADDR_SIZE byte address after the
opcode, all others are one byte (src/compiler.rs Inst docs;
src/interpreter.rs, cursor updates of the handlers and
Interpreter::print). -/
def stepSize (op : Nat) : Nat :=
  if op = Inst.jz.toBc ∨ op = Inst.jnz.toBc then 1 + ADDR_SIZE else 1

/-- Offsets of the encoded instructions of bc, walking from offset p and
skipping each instruction's address bytes; the fuel argument bounds the
number of instructions walked (bc.length always suffices since every
instruction is at least one byte). -/
def scanFromAux (bc : List Nat) : Nat → Nat → List Nat
  | 0, _ => []
  | fuel + 1, p =>
    if p < bc.length then p :: scanFromAux bc fuel (p + stepSize (bc.getD p 0)) else []

/-- The list of instruction-start offsets of bc reachable from offset p. -/
def scanFrom (bc : List Nat) (p : Nat) : List Nat :=
  scanFromAux bc bc.length p

/-- The offset at which the instruction walk starting at p leaves the
buffer.  A buffer decodes cleanly from p exactly when this equals the
buffer length (the walk never jumps out from inside a final truncated
instruction). -/
def scanEndAux (bc : List Nat) : Nat → Nat → Nat
  | 0, p => p
  | fuel + 1, p =>
    if p < bc.length then scanEndAux bc fuel (p + stepSize (bc.getD p 0)) else p

/-- The offset at which the instruction walk from p first reaches or
passes the end of the buffer. -/
def scanEnd (bc : List Nat) (p : Nat) : Nat :=
  scanEndAux bc bc.length p

/-- Invariant of the compile loop relating the buffer built so far to
the jump-resolution stack: the buffer is a clean sequence of non-halt
instructions; stack entries point just past the placeholder of an open
jump-if-zero; every closed jump-if-zero / jump-if-nonzero pair point at
each other exactly as the patching of src/compiler.rs lines 120-151
arranges. -/
structure Inv (v S : List Nat) : Prop where
  scanTotal : scanEnd v 0 = v.length
  opcodeLt : ∀ p ∈ scanFrom v 0, v.getD p 0 < 8
  stackMem : ∀ a ∈ S, 5 ≤ a ∧ a ≤ v.length ∧ (a - 5) ∈ scanFrom v 0 ∧ v.getD (a - 5) 0 = 6
  stackNodup : S.Pairwise (· ≠ ·)
  jzOk : ∀ p ∈ scanFrom v 0, v.getD p 0 = 6 → (p + 5) ∉ S →
    5 ≤ addrAt v p ∧ (addrAt v p ∈ scanFrom v 0 ∨ addrAt v p = v.length) ∧
      v.getD (addrAt v p - 5) 0 = 7 ∧ (addrAt v p - 5) ∈ scanFrom v 0 ∧
      addrAt v (addrAt v p - 5) = p + 5
  jnzOk : ∀ q ∈ scanFrom v 0, v.getD q 0 = 7 →
    5 ≤ addrAt v q ∧ addrAt v q ∈ scanFrom v 0 ∧ addrAt v q ∉ S ∧
      v.getD (addrAt v q - 5) 0 = 6 ∧ (addrAt v q - 5) ∈ scanFrom v 0 ∧
      addrAt v (addrAt v q - 5) = q + 5

/-- Shape of every buffer compile returns: it decodes cleanly, ends in
the unique halt byte, and all jump addresses land on instruction starts
with mutually matching targets. -/
structure Post (bc : List Nat) : Prop where
  nonempty : bc ≠ []
  scanTotal : scanEnd bc 0 = bc.length
  lastHalt : bc.getD (bc.length - 1) 0 = 8
  haltUnique : ∀ p ∈ scanFrom bc 0, bc.getD p 0 = 8 → p = bc.length - 1
  opcodeLe : ∀ p ∈ scanFrom bc 0, bc.getD p 0 ≤ 8
  jzOk : ∀ p ∈ scanFrom bc 0, bc.getD p 0 = 6 →
    addrAt bc p < bc.length ∧ addrAt bc p ∈ scanFrom bc 0 ∧ 5 ≤ addrAt bc p ∧
      bc.getD (addrAt bc p - 5) 0 = 7 ∧ (addrAt bc p - 5) ∈ scanFrom bc 0 ∧
      addrAt bc (addrAt bc p - 5) = p + 5
  jnzOk : ∀ q ∈ scanFrom bc 0, bc.getD q 0 = 7 →
    addrAt bc q < bc.length ∧ addrAt bc q ∈ scanFrom bc 0 ∧ 5 ≤ addrAt bc q ∧
      bc.getD (addrAt bc q - 5) 0 = 6 ∧ (addrAt bc q - 5) ∈ scanFrom bc 0 ∧
      addrAt bc (addrAt bc q - 5) = q + 5

/-- One iteration of the compile loop as a transition relation on its
state (remaining tokens, buffer, jump stack): each constructor is one
non-failing arm of the match in src/compiler.rs compile.  The pass
reaches end-of-input exactly when this relation can drive the state to
an empty token list. -/
inductive CompStep :
    List Token × List Nat × List Nat → List Token × List Nat × List Nat → Prop where
  | rAngle (ts : List Token) (v S : List Nat) :
    CompStep (Token.rAngle :: ts, v, S) (ts, v ++ [Inst.incPtr.toBc], S)
  | lAngle (ts : List Token) (v S : List Nat) :
    CompStep (Token.lAngle :: ts, v, S) (ts, v ++ [Inst.decPtr.toBc], S)
  | plus (ts : List Token) (v S : List Nat) :
    CompStep (Token.plus :: ts, v, S) (ts, v ++ [Inst.inc.toBc], S)
  | minus (ts : List Token) (v S : List Nat) :
    CompStep (Token.minus :: ts, v, S) (ts, v ++ [Inst.dec.toBc], S)
  | dot (ts : List Token) (v S : List Nat) :
    CompStep (Token.dot :: ts, v, S) (ts, v ++ [Inst.out.toBc], S)
  | comma (ts : List Token) (v S : List Nat) :
    CompStep (Token.comma :: ts, v, S) (ts, v ++ [Inst.inp.toBc], S)
  | comment (ts : List Token) (v S : List Nat) :
    CompStep (Token.comment :: ts, v, S) (ts, v, S)
  | lBrack (ts : List Token) (v S : List Nat) :
    CompStep (Token.lBrack :: ts, v, S)
      (ts, v ++ [Inst.jz.toBc] ++ [42, 42, 42, 42],
        (v ++ [Inst.jz.toBc] ++ [42, 42, 42, 42]).length :: S)
  | rBrack (ts : List Token) (v S : List Nat) (a : Nat) (h1 : a < U32)
      (h2 : (v ++ [Inst.jnz.toBc] ++ addrToLeBytes a).length < U32) :
    CompStep (Token.rBrack :: ts, v, a :: S)
      (ts, spliceAddr (v ++ [Inst.jnz.toBc] ++ addrToLeBytes a) a
        (v ++ [Inst.jnz.toBc] ++ addrToLeBytes a).length, S)

/-- The value the compile loop computes from a loop state. -/
def evalComp (x : List Token × List Nat × List Nat) : Except CompileError (List Nat) :=
  compileAux x.1 x.2.1 x.2.2

/-- Occurrences of one token in a stream. -/
def countTok (t : Token) (ts : List Token) : Nat :=
  ts.count t

/-- A token stream whose loop-end tokens outnumber its loop-start
tokens, but which makes the compiled buffer outgrow the 32-bit address
range before the first loop-end is reached: 2^30 loop-starts (5 bytes of
byte-code each) followed by 2^30 + 1 loop-ends. -/
def bigTs : List Token :=
  List.replicate 1073741824 Token.lBrack ++ List.replicate 1073741825 Token.rBrack

/-- A program of 256 increment tokens. -/
def plusProg : List Token :=
  List.replicate 256 Token.plus

/-- The byte-code of plusProg. -/
def plusBc : List Nat :=
  List.replicate 256 Inst.inc.toBc ++ [Inst.halt.toBc]

/-- The byte-code compile produces for the source "[[]]". -/
def nestedBc : List Nat :=
  [6, 20, 0, 0, 0, 6, 15, 0, 0, 0, 7, 10, 0, 0, 0, 7, 5, 0, 0, 0, 8]

/-- The byte-code compile produces for the source "[]". -/
def pairBc : List Nat :=
  [6, 10, 0, 0, 0, 7, 5, 0, 0, 0, 8]

/-- The byte-code compile produces for the source ",[.,]". -/
def echoBc : List Nat :=
  [5, 6, 13, 0, 0, 0, 4, 5, 7, 6, 0, 0, 0, 8]

/-! ### Basic facts checked by evaluation -/

example : compile (lexStr "") = .ok [8] := rfl
example : compile (lexStr "[[]]") = .ok nestedBc := rfl
example : compile (lexStr "[]") = .ok pairBc := rfl
example : compile (lexStr ",[.,]") = .ok echoBc := rfl
example : compile (lexStr "]") = .error .unmatchedLoopEnd := rfl
example : compile (lexStr "[") = .error .unmatchedLoopStart := rfl
example : runFuel [3, 8] 2 (initState []) =
    .halted { cursor := 1, ptr := 0, data := [255], inputs := [], output := [] } := rfl
example : runFuel echoBc 20 (initState [65, 66]) =
    .inputFail { cursor := 7, ptr := 0, data := [66], inputs := [], output := [65, 66] } := rfl
example : scanFrom nestedBc 0 = [0, 5, 10, 15, 20] := rfl
example : scanEnd nestedBc 0 = 21 := rfl

/-! ### Facts about the instruction walk -/

lemma one_le_stepSize (op : Nat) : 1 ≤ stepSize op := by
  unfold stepSize ADDR_SIZE
  split <;> omega

lemma stepSize_eq_one (op : Nat) (h6 : op ≠ 6) (h7 : op ≠ 7) : stepSize op = 1 := by
  unfold stepSize
  rw [if_neg]
  simp only [Inst.toBc]
  omega

lemma stepSize_eq_five (op : Nat) (h : op = 6 ∨ op = 7) : stepSize op = 5 := by
  unfold stepSize ADDR_SIZE
  rw [if_pos]
  simpa only [Inst.toBc] using h

lemma scanFromAux_pos (bc : List Nat) (f p : Nat) (h : p < bc.length) :
    scanFromAux bc (f + 1) p = p :: scanFromAux bc f (p + stepSize (bc.getD p 0)) := by
  simp [scanFromAux, h]

lemma scanFromAux_stop (bc : List Nat) (f p : Nat) (h : ¬ p < bc.length) :
    scanFromAux bc f p = [] := by
  cases f <;> simp [scanFromAux, h]

lemma scanEndAux_pos (bc : List Nat) (f p : Nat) (h : p < bc.length) :
    scanEndAux bc (f + 1) p = scanEndAux bc f (p + stepSize (bc.getD p 0)) := by
  simp [scanEndAux, h]

lemma scanEndAux_stop (bc : List Nat) (f p : Nat) (h : ¬ p < bc.length) :
    scanEndAux bc f p = p := by
  cases f <;> simp [scanEndAux, h]

lemma mem_scanFromAux_le (bc : List Nat) :
    ∀ (f p q : Nat), q ∈ scanFromAux bc f p → p ≤ q := by
  intro f
  induction f with
  | zero => intro p q h; simp [scanFromAux] at h
  | succ f ih =>
    intro p q h
    by_cases hp : p < bc.length
    · rw [scanFromAux_pos bc f p hp] at h
      rcases List.mem_cons.mp h with rfl | h2
      · exact le_refl _
      · have := ih _ _ h2
        have := one_le_stepSize (bc.getD p 0)
        omega
    · rw [scanFromAux_stop bc _ p hp] at h
      simp at h

lemma mem_scanFromAux_lt (bc : List Nat) :
    ∀ (f p q : Nat), q ∈ scanFromAux bc f p → q < bc.length := by
  intro f
  induction f with
  | zero => intro p q h; simp [scanFromAux] at h
  | succ f ih =>
    intro p q h
    by_cases hp : p < bc.length
    · rw [scanFromAux_pos bc f p hp] at h
      rcases List.mem_cons.mp h with rfl | h2
      · exact hp
      · exact ih _ _ h2
    · rw [scanFromAux_stop bc _ p hp] at h
      simp at h

lemma scanEndAux_ge (bc : List Nat) :
    ∀ (f p : Nat), p ≤ scanEndAux bc f p := by
  intro f
  induction f with
  | zero => intro p; simp [scanEndAux]
  | succ f ih =>
    intro p
    by_cases hp : p < bc.length
    · rw [scanEndAux_pos bc f p hp]
      have := ih (p + stepSize (bc.getD p 0))
      have := one_le_stepSize (bc.getD p 0)
      omega
    · rw [scanEndAux_stop bc _ p hp]

lemma scanFromAux_fuel (bc : List Nat) :
    ∀ (f g p : Nat), bc.length ≤ f + p → bc.length ≤ g + p →
      scanFromAux bc f p = scanFromAux bc g p := by
  intro f
  induction f with
  | zero =>
    intro g p hf _
    have hp : ¬ p < bc.length := by omega
    rw [scanFromAux_stop bc _ p hp, scanFromAux_stop bc _ p hp]
  | succ f ih =>
    intro g p hf hg
    by_cases hp : p < bc.length
    · cases g with
      | zero => omega
      | succ g =>
        rw [scanFromAux_pos bc f p hp, scanFromAux_pos bc g p hp]
        have hst := one_le_stepSize (bc.getD p 0)
        rw [ih g (p + stepSize (bc.getD p 0)) (by omega) (by omega)]
    · rw [scanFromAux_stop bc _ p hp, scanFromAux_stop bc _ p hp]

lemma scanEndAux_fuel (bc : List Nat) :
    ∀ (f g p : Nat), bc.length ≤ f + p → bc.length ≤ g + p →
      scanEndAux bc f p = scanEndAux bc g p := by
  intro f
  induction f with
  | zero =>
    intro g p hf _
    have hp : ¬ p < bc.length := by omega
    rw [scanEndAux_stop bc _ p hp, scanEndAux_stop bc _ p hp]
  | succ f ih =>
    intro g p hf hg
    by_cases hp : p < bc.length
    · cases g with
      | zero => omega
      | succ g =>
        rw [scanEndAux_pos bc f p hp, scanEndAux_pos bc g p hp]
        have hst := one_le_stepSize (bc.getD p 0)
        rw [ih g (p + stepSize (bc.getD p 0)) (by omega) (by omega)]
    · rw [scanEndAux_stop bc _ p hp, scanEndAux_stop bc _ p hp]

lemma getD_append_shift (v w : List Nat) (q : Nat) :
    (v ++ w).getD (v.length + q) 0 = w.getD q 0 := by
  rw [List.getD_append_right v w 0 _ (by omega)]
  simp

lemma scanFromAux_shift (v w : List Nat) :
    ∀ (f q : Nat), scanFromAux (v ++ w) f (v.length + q) =
      (scanFromAux w f q).map (fun r => v.length + r) := by
  intro f
  induction f with
  | zero => intro q; simp [scanFromAux]
  | succ f ih =>
    intro q
    by_cases hq : q < w.length
    · have hq2 : v.length + q < (v ++ w).length := by
        simp only [List.length_append]
        omega
      rw [scanFromAux_pos (v ++ w) f _ hq2, scanFromAux_pos w f q hq,
        getD_append_shift v w q, List.map_cons]
      rw [Nat.add_assoc, ih (q + stepSize (w.getD q 0))]
    · have hq2 : ¬ v.length + q < (v ++ w).length := by
        simp only [List.length_append]
        omega
      rw [scanFromAux_stop (v ++ w) _ _ hq2, scanFromAux_stop w _ q hq]
      simp

lemma scanEndAux_shift (v w : List Nat) :
    ∀ (f q : Nat), scanEndAux (v ++ w) f (v.length + q) = v.length + scanEndAux w f q := by
  intro f
  induction f with
  | zero => intro q; simp [scanEndAux]
  | succ f ih =>
    intro q
    by_cases hq : q < w.length
    · have hq2 : v.length + q < (v ++ w).length := by
        simp only [List.length_append]
        omega
      rw [scanEndAux_pos (v ++ w) f _ hq2, scanEndAux_pos w f q hq,
        getD_append_shift v w q, Nat.add_assoc, ih (q + stepSize (w.getD q 0))]
    · have hq2 : ¬ v.length + q < (v ++ w).length := by
        simp only [List.length_append]
        omega
      rw [scanEndAux_stop (v ++ w) _ _ hq2, scanEndAux_stop w _ q hq]

lemma scanFromAux_append (v w : List Nat) (g : Nat) (hg : w.length ≤ g) :
    ∀ (f p : Nat), scanEndAux v f p = v.length → v.length ≤ f + p →
      scanFromAux (v ++ w) (f + g) p =
        scanFromAux v f p ++ scanFromAux (v ++ w) g v.length := by
  intro f
  induction f with
  | zero =>
    intro p hEnd _
    simp only [scanEndAux] at hEnd
    subst hEnd
    simp [scanFromAux]
  | succ f ih =>
    intro p hEnd hsuf
    by_cases hp : p < v.length
    · have hp2 : p < (v ++ w).length := by
        simp only [List.length_append]
        omega
      have hgd : (v ++ w).getD p 0 = v.getD p 0 := List.getD_append v w 0 p hp
      have hst := one_le_stepSize (v.getD p 0)
      rw [scanEndAux_pos v f p hp] at hEnd
      have : f + 1 + g = (f + g) + 1 := by omega
      rw [this, scanFromAux_pos (v ++ w) (f + g) p hp2, scanFromAux_pos v f p hp, hgd,
        ih (p + stepSize (v.getD p 0)) hEnd (by omega)]
      simp
    · rw [scanEndAux_stop v _ p hp] at hEnd
      subst hEnd
      rw [scanFromAux_stop v _ _ hp]
      rw [scanFromAux_fuel (v ++ w) (f + 1 + g) g v.length
        (by simp only [List.length_append]; omega) (by simp only [List.length_append]; omega)]
      simp

lemma scanEndAux_append (v w : List Nat) (g : Nat) (hg : w.length ≤ g) :
    ∀ (f p : Nat), scanEndAux v f p = v.length → v.length ≤ f + p →
      scanEndAux (v ++ w) (f + g) p = scanEndAux (v ++ w) g v.length := by
  intro f
  induction f with
  | zero =>
    intro p hEnd _
    simp only [scanEndAux] at hEnd
    subst hEnd
    have : (0 : Nat) + g = g := by omega
    rw [this]
  | succ f ih =>
    intro p hEnd hsuf
    by_cases hp : p < v.length
    · have hp2 : p < (v ++ w).length := by
        simp only [List.length_append]
        omega
      have hgd : (v ++ w).getD p 0 = v.getD p 0 := List.getD_append v w 0 p hp
      have hst := one_le_stepSize (v.getD p 0)
      rw [scanEndAux_pos v f p hp] at hEnd
      have : f + 1 + g = (f + g) + 1 := by omega
      rw [this, scanEndAux_pos (v ++ w) (f + g) p hp2, hgd,
        ih (p + stepSize (v.getD p 0)) hEnd (by omega)]
    · rw [scanEndAux_stop v _ p hp] at hEnd
      subst hEnd
      exact scanEndAux_fuel (v ++ w) (f + 1 + g) g v.length
        (by simp only [List.length_append]; omega) (by simp only [List.length_append]; omega)

/-- Appending whole instructions to a cleanly decoding buffer extends
its instruction-offset list by the shifted offsets of the appendix. -/
lemma scanFrom_append (v w : List Nat) (h : scanEnd v 0 = v.length) :
    scanFrom (v ++ w) 0 = scanFrom v 0 ++ (scanFrom w 0).map (fun r => v.length + r) := by
  unfold scanFrom scanEnd at *
  have h1 : scanFromAux (v ++ w) (v ++ w).length 0 =
      scanFromAux (v ++ w) (v.length + w.length) 0 := by
    apply scanFromAux_fuel <;> simp only [List.length_append] <;> omega
  rw [h1, scanFromAux_append v w w.length (le_refl _) v.length 0 h (by omega)]
  have h2 : scanFromAux (v ++ w) w.length v.length =
      scanFromAux (v ++ w) w.length (v.length + 0) := by
    rw [Nat.add_zero]
  rw [h2, scanFromAux_shift v w w.length 0]

lemma scanEnd_append (v w : List Nat) (h : scanEnd v 0 = v.length) :
    scanEnd (v ++ w) 0 = v.length + scanEnd w 0 := by
  unfold scanEnd at *
  have h1 : scanEndAux (v ++ w) (v ++ w).length 0 =
      scanEndAux (v ++ w) (v.length + w.length) 0 := by
    apply scanEndAux_fuel <;> simp only [List.length_append] <;> omega
  rw [h1, scanEndAux_append v w w.length (le_refl _) v.length 0 h (by omega)]
  have h2 : scanEndAux (v ++ w) w.length v.length =
      scanEndAux (v ++ w) w.length (v.length + 0) := by
    rw [Nat.add_zero]
  rw [h2, scanEndAux_shift v w w.length 0]

/-- The instruction walk only inspects the opcode byte at each visited
offset, so overwriting other bytes leaves the walk unchanged. -/
lemma scanFromAux_congr (v v' : List Nat) (hlen : v'.length = v.length) :
    ∀ (f p : Nat), (∀ q ∈ scanFromAux v f p, v'.getD q 0 = v.getD q 0) →
      scanFromAux v' f p = scanFromAux v f p := by
  intro f
  induction f with
  | zero => intro p _; simp [scanFromAux]
  | succ f ih =>
    intro p hq
    by_cases hp : p < v.length
    · have hp2 : p < v'.length := by omega
      have hhd : v'.getD p 0 = v.getD p 0 :=
        hq p (by rw [scanFromAux_pos v f p hp]; exact List.mem_cons_self _ _)
      rw [scanFromAux_pos v f p hp, scanFromAux_pos v' f p hp2, hhd]
      rw [ih (p + stepSize (v.getD p 0)) (fun q hmem => hq q
        (by rw [scanFromAux_pos v f p hp]; exact List.mem_cons_of_mem _ hmem))]
    · rw [scanFromAux_stop v _ p hp, scanFromAux_stop v' _ p (by omega)]

lemma scanEndAux_congr (v v' : List Nat) (hlen : v'.length = v.length) :
    ∀ (f p : Nat), (∀ q ∈ scanFromAux v f p, v'.getD q 0 = v.getD q 0) →
      scanEndAux v' f p = scanEndAux v f p := by
  intro f
  induction f with
  | zero => intro p _; simp [scanEndAux]
  | succ f ih =>
    intro p hq
    by_cases hp : p < v.length
    · have hp2 : p < v'.length := by omega
      have hhd : v'.getD p 0 = v.getD p 0 :=
        hq p (by rw [scanFromAux_pos v f p hp]; exact List.mem_cons_self _ _)
      rw [scanEndAux_pos v f p hp, scanEndAux_pos v' f p hp2, hhd]
      rw [ih (p + stepSize (v.getD p 0)) (fun q hmem => hq q
        (by rw [scanFromAux_pos v f p hp]; exact List.mem_cons_of_mem _ hmem))]
    · rw [scanEndAux_stop v _ p hp, scanEndAux_stop v' _ p (by omega)]

/-- Two distinct visited offsets are separated by at least the size of
the earlier instruction: instructions do not overlap. -/
lemma scanFromAux_gap (bc : List Nat) :
    ∀ (f p q r : Nat), q ∈ scanFromAux bc f p → r ∈ scanFromAux bc f p → q < r →
      q + stepSize (bc.getD q 0) ≤ r := by
  intro f
  induction f with
  | zero => intro p q r hq _ _; simp [scanFromAux] at hq
  | succ f ih =>
    intro p q r hq hr hlt
    by_cases hp : p < bc.length
    · rw [scanFromAux_pos bc f p hp] at hq hr
      rcases List.mem_cons.mp hq with heq | hq2
      · rcases List.mem_cons.mp hr with her | hr2
        · omega
        · rw [heq]
          exact mem_scanFromAux_le bc f _ r hr2
      · rcases List.mem_cons.mp hr with her | hr2
        · have h1 := mem_scanFromAux_le bc f _ q hq2
          have h2 := one_le_stepSize (bc.getD p 0)
          omega
        · exact ih _ q r hq2 hr2 hlt
    · rw [scanFromAux_stop bc _ p hp] at hq
      simp at hq

/-- The offset just past a visited instruction is either visited itself
or is where the walk leaves the buffer. -/
lemma scanFromAux_next (bc : List Nat) :
    ∀ (f p q : Nat), q ∈ scanFromAux bc f p →
      q + stepSize (bc.getD q 0) ∈ scanFromAux bc f p ∨
        q + stepSize (bc.getD q 0) = scanEndAux bc f p := by
  intro f
  induction f with
  | zero => intro p q hq; simp [scanFromAux] at hq
  | succ f ih =>
    intro p q hq
    by_cases hp : p < bc.length
    · rw [scanFromAux_pos bc f p hp] at hq ⊢
      rw [scanEndAux_pos bc f p hp]
      rcases List.mem_cons.mp hq with heq | hq2
      · rw [heq]
        cases f with
        | zero =>
          right
          simp [scanEndAux]
        | succ f2 =>
          by_cases hin : p + stepSize (bc.getD p 0) < bc.length
          · left
            rw [scanFromAux_pos bc f2 _ hin]
            exact List.mem_cons_of_mem _ (List.mem_cons_self _ _)
          · right
            rw [scanEndAux_stop bc _ _ hin]
      · rcases ih _ q hq2 with h1 | h1
        · exact Or.inl (List.mem_cons_of_mem _ h1)
        · exact Or.inr h1
    · rw [scanFromAux_stop bc _ p hp] at hq
      simp at hq

/-- In a cleanly decoding buffer the byte just past a visited
instruction never exceeds the buffer length. -/
lemma scan_next_le (bc : List Nat) (h : scanEnd bc 0 = bc.length) (q : Nat)
    (hq : q ∈ scanFrom bc 0) : q + stepSize (bc.getD q 0) ≤ bc.length := by
  rcases scanFromAux_next bc bc.length 0 q hq with h1 | h1
  · exact le_of_lt (mem_scanFromAux_lt bc bc.length 0 _ h1)
  · unfold scanEnd at h
    omega

/-- In a cleanly decoding buffer the offset just past a visited
instruction is itself visited as long as it is inside the buffer. -/
lemma scan_next_mem (bc : List Nat) (h : scanEnd bc 0 = bc.length) (q : Nat)
    (hq : q ∈ scanFrom bc 0) (hlt : q + stepSize (bc.getD q 0) < bc.length) :
    q + stepSize (bc.getD q 0) ∈ scanFrom bc 0 := by
  rcases scanFromAux_next bc bc.length 0 q hq with h1 | h1
  · exact h1
  · unfold scanEnd at h
    omega

/-! ### Facts about address bytes and the in-place patch -/

lemma getD_take_lt (v : List Nat) (n i : Nat) (h : i < n) :
    (v.take n).getD i 0 = v.getD i 0 := by
  simp [List.getD_eq_getD_get?, List.get?_eq_getElem?, List.getElem?_take_of_lt h]

lemma getD_drop_add (v : List Nat) (n i : Nat) :
    (v.drop n).getD i 0 = v.getD (n + i) 0 := by
  simp [List.getD_eq_getD_get?, List.get?_eq_getElem?, List.getElem?_drop]

lemma length_addrToLeBytes (a : Nat) : (addrToLeBytes a).length = 4 := rfl

/-- Reassembling a little-endian encoded u32 yields the encoded value. -/
lemma addr_roundtrip (t : Nat) (h : t < U32) :
    (addrToLeBytes t).getD 0 0 + 256 * (addrToLeBytes t).getD 1 0 +
      65536 * (addrToLeBytes t).getD 2 0 + 16777216 * (addrToLeBytes t).getD 3 0 = t := by
  unfold U32 at h
  simp only [addrToLeBytes, List.getD_cons_zero, List.getD_cons_succ]
  omega

lemma spliceAddr_length (v2 : List Nat) (a t : Nat) (h4 : 4 ≤ a) (ha : a ≤ v2.length) :
    (spliceAddr v2 a t).length = v2.length := by
  simp only [spliceAddr, List.length_append, List.length_take, List.length_drop,
    length_addrToLeBytes, ADDR_SIZE]
  omega

lemma spliceAddr_getD_low (v2 : List Nat) (a t i : Nat) (hi : i < a - 4) (ha : a ≤ v2.length) :
    (spliceAddr v2 a t).getD i 0 = v2.getD i 0 := by
  unfold spliceAddr ADDR_SIZE
  rw [List.getD_append _ _ 0 i
    (by simp only [List.length_append, List.length_take, length_addrToLeBytes]; omega)]
  rw [List.getD_append _ _ 0 i (by simp only [List.length_take]; omega)]
  exact getD_take_lt v2 (a - 4) i hi

lemma spliceAddr_getD_mid (v2 : List Nat) (a t j : Nat) (hj : j < 4) (h4 : 4 ≤ a)
    (ha : a ≤ v2.length) :
    (spliceAddr v2 a t).getD (a - 4 + j) 0 = (addrToLeBytes t).getD j 0 := by
  unfold spliceAddr ADDR_SIZE
  rw [List.getD_append _ _ 0 _
    (by simp only [List.length_append, List.length_take, length_addrToLeBytes]; omega)]
  rw [List.getD_append_right _ _ 0 _ (by simp only [List.length_take]; omega)]
  congr 1
  simp only [List.length_take]
  omega

lemma spliceAddr_getD_high (v2 : List Nat) (a t i : Nat) (hi : a ≤ i) (h4 : 4 ≤ a)
    (ha : a ≤ v2.length) :
    (spliceAddr v2 a t).getD i 0 = v2.getD i 0 := by
  unfold spliceAddr ADDR_SIZE
  rw [List.getD_append_right _ _ 0 i
    (by simp only [List.length_append, List.length_take, length_addrToLeBytes]; omega)]
  rw [getD_drop_add]
  congr 1
  simp only [List.length_append, List.length_take, length_addrToLeBytes]
  omega

/-- Reading an address field lying fully inside v is unaffected by what
is appended after v. -/
lemma addrAt_append (v w : List Nat) (p : Nat) (h : p + 5 ≤ v.length) :
    addrAt (v ++ w) p = addrAt v p := by
  unfold addrAt
  rw [List.getD_append v w 0 (p + 1) (by omega), List.getD_append v w 0 (p + 2) (by omega),
    List.getD_append v w 0 (p + 3) (by omega), List.getD_append v w 0 (p + 4) (by omega)]

/-- Reading an address field disjoint from the patched placeholder is
unaffected by the patch. -/
lemma addrAt_spliceAddr_outside (v2 : List Nat) (a t p : Nat) (h4 : 4 ≤ a)
    (ha : a ≤ v2.length) (hdisj : p + 4 < a - 4 ∨ a ≤ p + 1) :
    addrAt (spliceAddr v2 a t) p = addrAt v2 p := by
  unfold addrAt
  rcases hdisj with hlo | hhi
  · rw [spliceAddr_getD_low v2 a t (p + 1) (by omega) ha,
      spliceAddr_getD_low v2 a t (p + 2) (by omega) ha,
      spliceAddr_getD_low v2 a t (p + 3) (by omega) ha,
      spliceAddr_getD_low v2 a t (p + 4) (by omega) ha]
  · rw [spliceAddr_getD_high v2 a t (p + 1) (by omega) h4 ha,
      spliceAddr_getD_high v2 a t (p + 2) (by omega) h4 ha,
      spliceAddr_getD_high v2 a t (p + 3) (by omega) h4 ha,
      spliceAddr_getD_high v2 a t (p + 4) (by omega) h4 ha]

/-- Reading the patched address field yields the patched-in target. -/
lemma addrAt_spliceAddr_self (v2 : List Nat) (a t : Nat) (h5 : 5 ≤ a) (ha : a ≤ v2.length)
    (ht : t < U32) :
    addrAt (spliceAddr v2 a t) (a - 5) = t := by
  unfold addrAt
  have e1 : a - 5 + 1 = a - 4 + 0 := by omega
  have e2 : a - 5 + 2 = a - 4 + 1 := by omega
  have e3 : a - 5 + 3 = a - 4 + 2 := by omega
  have e4 : a - 5 + 4 = a - 4 + 3 := by omega
  rw [e1, e2, e3, e4,
    spliceAddr_getD_mid v2 a t 0 (by omega) (by omega) ha,
    spliceAddr_getD_mid v2 a t 1 (by omega) (by omega) ha,
    spliceAddr_getD_mid v2 a t 2 (by omega) (by omega) ha,
    spliceAddr_getD_mid v2 a t 3 (by omega) (by omega) ha]
  exact addr_roundtrip t ht

/-- The patch rewrites only bytes interior to the jump-if-zero
instruction that starts at offset a - 5, so the instruction walk and
every opcode byte it visits are unchanged. -/
lemma spliceAddr_scan (v2 : List Nat) (a t : Nat) (h5 : 5 ≤ a) (ha : a ≤ v2.length)
    (hscan : scanEnd v2 0 = v2.length) (hmem : (a - 5) ∈ scanFrom v2 0)
    (hop : v2.getD (a - 5) 0 = 6) :
    (∀ q ∈ scanFrom v2 0, (spliceAddr v2 a t).getD q 0 = v2.getD q 0) ∧
      scanFrom (spliceAddr v2 a t) 0 = scanFrom v2 0 ∧
      scanEnd (spliceAddr v2 a t) 0 = v2.length := by
  have hlen := spliceAddr_length v2 a t (by omega) ha
  have hq : ∀ q ∈ scanFrom v2 0, (spliceAddr v2 a t).getD q 0 = v2.getD q 0 := by
    intro q hqmem
    rcases Nat.lt_trichotomy q (a - 5) with hlt | heq | hgt
    · exact spliceAddr_getD_low v2 a t q (by omega) ha
    · rw [heq]
      exact spliceAddr_getD_low v2 a t (a - 5) (by omega) ha
    · have hgap := scanFromAux_gap v2 v2.length 0 (a - 5) q hmem hqmem hgt
      rw [hop, stepSize_eq_five 6 (Or.inl rfl)] at hgap
      exact spliceAddr_getD_high v2 a t q (by omega) (by omega) ha
  refine ⟨hq, ?_, ?_⟩
  · unfold scanFrom
    rw [hlen]
    exact scanFromAux_congr v2 (spliceAddr v2 a t) hlen v2.length 0 hq
  · unfold scanEnd
    rw [hlen]
    rw [scanEndAux_congr v2 (spliceAddr v2 a t) hlen v2.length 0 hq]
    exact hscan

/-! ### Preservation of the compile-loop invariant -/

/-- A byte block that is one whole instruction decodes as one
instruction. -/
lemma scan_block (w : List Nat) (hw : 0 < w.length)
    (hstep : stepSize (w.getD 0 0) = w.length) :
    scanFrom w 0 = [0] ∧ scanEnd w 0 = w.length := by
  unfold scanFrom scanEnd
  obtain ⟨n, hl⟩ : ∃ n, w.length = n + 1 := ⟨w.length - 1, by omega⟩
  constructor
  · rw [hl, scanFromAux_pos w n 0 (by omega), Nat.zero_add, hstep, hl,
      scanFromAux_stop w n (n + 1) (by omega)]
  · rw [hl, scanEndAux_pos w n 0 (by omega), Nat.zero_add, hstep, hl,
      scanEndAux_stop w n (n + 1) (by omega)]

/-- Appending one whole instruction to a cleanly decoding buffer adds
exactly one new instruction offset, at the old end. -/
lemma append_block_scan (v w : List Nat) (hv : scanEnd v 0 = v.length) (hw0 : 0 < w.length)
    (hwstep : stepSize (w.getD 0 0) = w.length) :
    scanFrom (v ++ w) 0 = scanFrom v 0 ++ [v.length] ∧
      scanEnd (v ++ w) 0 = v.length + w.length := by
  have hb := scan_block w hw0 hwstep
  constructor
  · rw [scanFrom_append v w hv, hb.1]
    simp
  · rw [scanEnd_append v w hv, hb.2]

lemma getD_append_self (v w : List Nat) : (v ++ w).getD v.length 0 = w.getD 0 0 := by
  have h := getD_append_shift v w 0
  simpa using h

/-- The address bytes of a jump instruction visited by the walk of a
cleanly decoding buffer lie inside the buffer. -/
lemma jump_bytes_inside (v : List Nat) (hv : scanEnd v 0 = v.length) (p : Nat)
    (hp : p ∈ scanFrom v 0) (hop : v.getD p 0 = 6 ∨ v.getD p 0 = 7) : p + 5 ≤ v.length := by
  have h := scan_next_le v hv p hp
  rwa [stepSize_eq_five _ hop] at h

/-- Appending a one-byte non-jump, non-halt opcode preserves the
compile-loop invariant. -/
lemma inv_append_simple (v S : List Nat) (op : Nat) (hop : op ≤ 5) (h : Inv v S) :
    Inv (v ++ [op]) S := by
  have hw0 : 0 < ([op] : List Nat).length := by simp
  have hwstep : stepSize (([op] : List Nat).getD 0 0) = ([op] : List Nat).length := by
    simp only [List.getD_cons_zero, List.length_singleton]
    exact stepSize_eq_one op (by omega) (by omega)
  have hsc := append_block_scan v [op] h.scanTotal hw0 hwstep
  have hlen : (v ++ [op]).length = v.length + 1 := by simp
  have hves : ∀ p, p < v.length → (v ++ [op]).getD p 0 = v.getD p 0 :=
    fun p hp => List.getD_append _ _ 0 p hp
  have hlast : (v ++ [op]).getD v.length 0 = op := by
    rw [getD_append_self]
    simp
  have hmemscan : ∀ p, p ∈ scanFrom (v ++ [op]) 0 ↔ p ∈ scanFrom v 0 ∨ p = v.length := by
    intro p
    rw [hsc.1]
    simp
  have hmemv : ∀ p, p ∈ scanFrom v 0 → p < v.length :=
    fun p hp => mem_scanFromAux_lt v v.length 0 p hp
  refine ⟨?_, ?_, ?_, h.stackNodup, ?_, ?_⟩
  · rw [hsc.2, hlen]
    simp
  · intro p hpmem
    rcases (hmemscan p).mp hpmem with hpv | rfl
    · rw [hves p (hmemv p hpv)]
      exact h.opcodeLt p hpv
    · rw [hlast]
      omega
  · intro b hbS
    obtain ⟨hb5, hble, hbmem, hbop⟩ := h.stackMem b hbS
    refine ⟨hb5, by omega, (hmemscan _).mpr (Or.inl hbmem), ?_⟩
    rw [hves _ (by have := hmemv _ hbmem; omega)]
    exact hbop
  · intro p hpmem hpop hpnot
    rcases (hmemscan p).mp hpmem with hpv | rfl
    · have hplt := hmemv p hpv
      rw [hves p hplt] at hpop
      obtain ⟨o1, o2, o3, o4, o5⟩ := h.jzOk p hpv hpop hpnot
      have ht5 : p + 5 ≤ v.length :=
        jump_bytes_inside v h.scanTotal p hpv (Or.inl hpop)
      have haddr : addrAt (v ++ [op]) p = addrAt v p := addrAt_append v [op] p ht5
      have htle : addrAt v p ≤ v.length := by
        rcases o2 with h2 | h2
        · exact le_of_lt (hmemv _ h2)
        · omega
      have haddr2 : addrAt (v ++ [op]) (addrAt v p - 5) = addrAt v (addrAt v p - 5) :=
        addrAt_append v [op] _ (by omega)
      rw [haddr, haddr2]
      refine ⟨o1, ?_, ?_, (hmemscan _).mpr (Or.inl o4), o5⟩
      · left
        rcases o2 with h2 | h2
        · exact (hmemscan _).mpr (Or.inl h2)
        · exact (hmemscan _).mpr (Or.inr h2)
      · rw [hves _ (by have := hmemv _ o4; omega)]
        exact o3
    · rw [hlast] at hpop
      omega
  · intro q hqmem hqop
    rcases (hmemscan q).mp hqmem with hqv | rfl
    · have hqlt := hmemv q hqv
      rw [hves q hqlt] at hqop
      obtain ⟨o1, o2, o3, o4, o5, o6⟩ := h.jnzOk q hqv hqop
      have hq5 : q + 5 ≤ v.length :=
        jump_bytes_inside v h.scanTotal q hqv (Or.inr hqop)
      have haddr : addrAt (v ++ [op]) q = addrAt v q := addrAt_append v [op] q hq5
      have hale : addrAt v q < v.length := hmemv _ o2
      have haddr2 : addrAt (v ++ [op]) (addrAt v q - 5) = addrAt v (addrAt v q - 5) :=
        addrAt_append v [op] _ (by omega)
      rw [haddr, haddr2]
      refine ⟨o1, (hmemscan _).mpr (Or.inl o2), o3, ?_, (hmemscan _).mpr (Or.inl o5), o6⟩
      rw [hves _ (by have := hmemv _ o5; omega)]
      exact o4
    · rw [hlast] at hqop
      omega

/-- Appending a jump-if-zero opcode with its four placeholder bytes and
pushing the offset just past them preserves the compile-loop
invariant. -/
lemma inv_append_lbrack (v S : List Nat) (h : Inv v S) :
    Inv (v ++ [6, 42, 42, 42, 42]) ((v.length + 5) :: S) := by
  have hw0 : 0 < ([6, 42, 42, 42, 42] : List Nat).length := by simp
  have hwstep : stepSize (([6, 42, 42, 42, 42] : List Nat).getD 0 0) =
      ([6, 42, 42, 42, 42] : List Nat).length := by
    simp only [List.getD_cons_zero]
    rw [stepSize_eq_five 6 (Or.inl rfl)]
    simp
  have hsc := append_block_scan v [6, 42, 42, 42, 42] h.scanTotal hw0 hwstep
  have hlen : (v ++ [6, 42, 42, 42, 42]).length = v.length + 5 := by simp
  have hves : ∀ p, p < v.length → (v ++ [6, 42, 42, 42, 42]).getD p 0 = v.getD p 0 :=
    fun p hp => List.getD_append _ _ 0 p hp
  have hlast : (v ++ [6, 42, 42, 42, 42]).getD v.length 0 = 6 := by
    rw [getD_append_self]
    simp
  have hmemscan : ∀ p, p ∈ scanFrom (v ++ [6, 42, 42, 42, 42]) 0 ↔
      p ∈ scanFrom v 0 ∨ p = v.length := by
    intro p
    rw [hsc.1]
    simp
  have hmemv : ∀ p, p ∈ scanFrom v 0 → p < v.length :=
    fun p hp => mem_scanFromAux_lt v v.length 0 p hp
  have hSle : ∀ b ∈ S, b ≤ v.length := fun b hb => (h.stackMem b hb).2.1
  refine ⟨?_, ?_, ?_, ?_, ?_, ?_⟩
  · rw [hsc.2, hlen]
    simp
  · intro p hpmem
    rcases (hmemscan p).mp hpmem with hpv | rfl
    · rw [hves p (hmemv p hpv)]
      exact h.opcodeLt p hpv
    · rw [hlast]
      omega
  · intro b hbS
    rcases List.mem_cons.mp hbS with hbnew | hbold
    · subst hbnew
      refine ⟨by omega, by omega, ?_, ?_⟩
      · have : v.length + 5 - 5 = v.length := by omega
        rw [this]
        exact (hmemscan _).mpr (Or.inr rfl)
      · have : v.length + 5 - 5 = v.length := by omega
        rw [this, hlast]
    · obtain ⟨hb5, hble, hbmem, hbop⟩ := h.stackMem b hbold
      refine ⟨hb5, by omega, (hmemscan _).mpr (Or.inl hbmem), ?_⟩
      rw [hves _ (by have := hmemv _ hbmem; omega)]
      exact hbop
  · rw [List.pairwise_cons]
    refine ⟨fun b hb => ?_, h.stackNodup⟩
    have := hSle b hb
    omega
  · intro p hpmem hpop hpnot
    rcases (hmemscan p).mp hpmem with hpv | rfl
    · have hplt := hmemv p hpv
      rw [hves p hplt] at hpop
      have hpnotS : p + 5 ∉ S := fun hmem => hpnot (List.mem_cons_of_mem _ hmem)
      obtain ⟨o1, o2, o3, o4, o5⟩ := h.jzOk p hpv hpop hpnotS
      have ht5 : p + 5 ≤ v.length :=
        jump_bytes_inside v h.scanTotal p hpv (Or.inl hpop)
      have haddr : addrAt (v ++ [6, 42, 42, 42, 42]) p = addrAt v p :=
        addrAt_append v _ p ht5
      have htle : addrAt v p ≤ v.length := by
        rcases o2 with h2 | h2
        · exact le_of_lt (hmemv _ h2)
        · omega
      have haddr2 : addrAt (v ++ [6, 42, 42, 42, 42]) (addrAt v p - 5) =
          addrAt v (addrAt v p - 5) :=
        addrAt_append v _ _ (by omega)
      rw [haddr, haddr2]
      refine ⟨o1, ?_, ?_, (hmemscan _).mpr (Or.inl o4), o5⟩
      · left
        rcases o2 with h2 | h2
        · exact (hmemscan _).mpr (Or.inl h2)
        · exact (hmemscan _).mpr (Or.inr h2)
      · rw [hves _ (by have := hmemv _ o4; omega)]
        exact o3
    · exact absurd (List.mem_cons_self _ _) hpnot
  · intro q hqmem hqop
    rcases (hmemscan q).mp hqmem with hqv | rfl
    · have hqlt := hmemv q hqv
      rw [hves q hqlt] at hqop
      obtain ⟨o1, o2, o3, o4, o5, o6⟩ := h.jnzOk q hqv hqop
      have hq5 : q + 5 ≤ v.length :=
        jump_bytes_inside v h.scanTotal q hqv (Or.inr hqop)
      have haddr : addrAt (v ++ [6, 42, 42, 42, 42]) q = addrAt v q :=
        addrAt_append v _ q hq5
      have hale : addrAt v q < v.length := hmemv _ o2
      have haddr2 : addrAt (v ++ [6, 42, 42, 42, 42]) (addrAt v q - 5) =
          addrAt v (addrAt v q - 5) :=
        addrAt_append v _ _ (by omega)
      rw [haddr, haddr2]
      refine ⟨o1, (hmemscan _).mpr (Or.inl o2), ?_, ?_, (hmemscan _).mpr (Or.inl o5), o6⟩
      · intro hmem
        rcases List.mem_cons.mp hmem with hnew | hold
        · omega
        · exact o3 hold
      · rw [hves _ (by have := hmemv _ o5; omega)]
        exact o4
    · rw [hlast] at hqop
      omega

/-- Appending a jump-if-nonzero instruction whose address is the popped
stack entry and patching the matching placeholder with the new buffer
length preserves the compile-loop invariant. -/
lemma inv_rbrack_core (v S : List Nat) (a : Nat) (h : Inv v (a :: S)) (h1 : a < U32)
    (h2 : v.length + 5 < U32) :
    Inv (spliceAddr (v ++ (7 :: addrToLeBytes a)) a (v ++ (7 :: addrToLeBytes a)).length)
      S := by
  obtain ⟨ha5, hav, hamem, haop⟩ := h.stackMem a (List.mem_cons_self _ _)
  have hpairs := List.pairwise_cons.mp h.stackNodup
  have hnotin : a ∉ S := fun hmem => (hpairs.1 a hmem) rfl
  have hSsub : S.Pairwise (· ≠ ·) := hpairs.2
  have hmemv : ∀ p, p ∈ scanFrom v 0 → p < v.length :=
    fun p hp => mem_scanFromAux_lt v v.length 0 p hp
  have hw0 : 0 < (7 :: addrToLeBytes a).length := by simp
  have hv2len : (v ++ (7 :: addrToLeBytes a)).length = v.length + 5 := by
    simp [length_addrToLeBytes]
  have hwstep : stepSize ((7 :: addrToLeBytes a).getD 0 0) = (7 :: addrToLeBytes a).length := by
    simp only [List.getD_cons_zero]
    rw [stepSize_eq_five 7 (Or.inr rfl)]
    simp [length_addrToLeBytes]
  have hsc := append_block_scan v (7 :: addrToLeBytes a) h.scanTotal hw0 hwstep
  have hves : ∀ p, p < v.length → (v ++ (7 :: addrToLeBytes a)).getD p 0 = v.getD p 0 :=
    fun p hp => List.getD_append _ _ 0 p hp
  have hlast : (v ++ (7 :: addrToLeBytes a)).getD v.length 0 = 7 := by
    rw [getD_append_self]
    rfl
  have hmemscan2 : ∀ p, p ∈ scanFrom (v ++ (7 :: addrToLeBytes a)) 0 ↔
      p ∈ scanFrom v 0 ∨ p = v.length := by
    intro p
    rw [hsc.1]
    simp
  have haddr_jnz2 : addrAt (v ++ (7 :: addrToLeBytes a)) v.length = a := by
    unfold addrAt
    rw [getD_append_shift v _ 1, getD_append_shift v _ 2, getD_append_shift v _ 3,
      getD_append_shift v _ 4]
    simp only [List.getD_cons_succ]
    exact addr_roundtrip a h1
  have hscanTot2 : scanEnd (v ++ (7 :: addrToLeBytes a)) 0 =
      (v ++ (7 :: addrToLeBytes a)).length := by
    rw [hsc.2, hv2len]
    simp [length_addrToLeBytes]
  have ha5lt : a - 5 < v.length := by omega
  have hamem2 : a - 5 ∈ scanFrom (v ++ (7 :: addrToLeBytes a)) 0 :=
    (hmemscan2 _).mpr (Or.inl hamem)
  have haop2 : (v ++ (7 :: addrToLeBytes a)).getD (a - 5) 0 = 6 := by
    rw [hves _ ha5lt]
    exact haop
  obtain ⟨hqpres, hscpres, hendpres⟩ :=
    spliceAddr_scan (v ++ (7 :: addrToLeBytes a)) a (v ++ (7 :: addrToLeBytes a)).length
      ha5 (by rw [hv2len]; omega) hscanTot2 hamem2 haop2
  set v3 := spliceAddr (v ++ (7 :: addrToLeBytes a)) a (v ++ (7 :: addrToLeBytes a)).length
    with hv3
  have hlen3 : v3.length = v.length + 5 := by
    rw [hv3, spliceAddr_length _ _ _ (by omega) (by rw [hv2len]; omega), hv2len]
  have hmemscan3 : ∀ p, p ∈ scanFrom v3 0 ↔ p ∈ scanFrom v 0 ∨ p = v.length := by
    intro p
    rw [hscpres]
    exact hmemscan2 p
  have hgd3 : ∀ p, p ∈ scanFrom v 0 → v3.getD p 0 = v.getD p 0 := by
    intro p hp
    rw [hqpres p ((hmemscan2 p).mpr (Or.inl hp)), hves p (hmemv p hp)]
  have hgd3last : v3.getD v.length 0 = 7 := by
    rw [hqpres v.length ((hmemscan2 _).mpr (Or.inr rfl)), hlast]
  have haddrnew : addrAt v3 (a - 5) = v.length + 5 := by
    rw [hv3, addrAt_spliceAddr_self _ a _ ha5 (by rw [hv2len]; omega)
      (by rw [hv2len]; exact h2), hv2len]
  have haddrq : addrAt v3 v.length = a := by
    rw [hv3, addrAt_spliceAddr_outside _ a _ v.length (by omega) (by rw [hv2len]; omega)
      (Or.inr (by omega))]
    exact haddr_jnz2
  have haddr3 : ∀ p, p ∈ scanFrom v 0 → (v.getD p 0 = 6 ∨ v.getD p 0 = 7) → p ≠ a - 5 →
      addrAt v3 p = addrAt v p := by
    intro p hp hop hne
    have hp5 : p + 5 ≤ v.length := jump_bytes_inside v h.scanTotal p hp hop
    have h2a : addrAt (v ++ (7 :: addrToLeBytes a)) p = addrAt v p := addrAt_append v _ p hp5
    rcases Nat.lt_or_ge p (a - 5) with hlt | hge
    · have hgap := scanFromAux_gap v v.length 0 p (a - 5) hp hamem hlt
      rw [stepSize_eq_five _ hop] at hgap
      rw [hv3, addrAt_spliceAddr_outside _ a _ p (by omega) (by rw [hv2len]; omega)
        (Or.inl (by omega))]
      exact h2a
    · have hgt : a - 5 < p := by omega
      have hgap := scanFromAux_gap v v.length 0 (a - 5) p hamem hp hgt
      rw [haop, stepSize_eq_five 6 (Or.inl rfl)] at hgap
      rw [hv3, addrAt_spliceAddr_outside _ a _ p (by omega) (by rw [hv2len]; omega)
        (Or.inr (by omega))]
      exact h2a
  refine ⟨?_, ?_, ?_, hSsub, ?_, ?_⟩
  · rw [hendpres, hv2len, hlen3]
  · intro p hpmem
    rcases (hmemscan3 p).mp hpmem with hpv | rfl
    · rw [hgd3 p hpv]
      exact h.opcodeLt p hpv
    · rw [hgd3last]
      omega
  · intro b hbS
    obtain ⟨hb5, hble, hbmem, hbop⟩ := h.stackMem b (List.mem_cons_of_mem _ hbS)
    refine ⟨hb5, by omega, (hmemscan3 _).mpr (Or.inl hbmem), ?_⟩
    rw [hgd3 _ hbmem]
    exact hbop
  · intro p hpmem hpop hpnot
    rcases (hmemscan3 p).mp hpmem with hpv | rfl
    · rw [hgd3 p hpv] at hpop
      by_cases hpa : p = a - 5
      · subst hpa
        refine ⟨by rw [haddrnew]; omega, Or.inr (by rw [haddrnew, hlen3]), ?_, ?_, ?_⟩
        · rw [haddrnew]
          have he : v.length + 5 - 5 = v.length := by omega
          rw [he]
          exact hgd3last
        · rw [haddrnew]
          have he : v.length + 5 - 5 = v.length := by omega
          rw [he]
          exact (hmemscan3 _).mpr (Or.inr rfl)
        · rw [haddrnew]
          have he : v.length + 5 - 5 = v.length := by omega
          rw [he, haddrq]
          omega
      · have hnotcons : p + 5 ∉ a :: S := by
          intro hm
          rcases List.mem_cons.mp hm with he | hm2
          · omega
          · exact hpnot hm2
        obtain ⟨o1, o2, o3, o4, o5⟩ := h.jzOk p hpv hpop hnotcons
        have ht5ne : addrAt v p - 5 ≠ a - 5 := by
          intro heq
          rw [heq, haop] at o3
          omega
        rw [haddr3 p hpv (Or.inl hpop) hpa]
        refine ⟨o1, ?_, ?_, (hmemscan3 _).mpr (Or.inl o4), ?_⟩
        · left
          rcases o2 with h2m | h2m
          · exact (hmemscan3 _).mpr (Or.inl h2m)
          · exact (hmemscan3 _).mpr (Or.inr h2m)
        · rw [hgd3 _ o4]
          exact o3
        · rw [haddr3 _ o4 (Or.inr o3) ht5ne]
          exact o5
    · rw [hgd3last] at hpop
      omega
  · intro q hqmem hqop
    rcases (hmemscan3 q).mp hqmem with hqv | rfl
    · rw [hgd3 q hqv] at hqop
      have hqa : q ≠ a - 5 := by
        intro heq
        rw [heq, haop] at hqop
        omega
      obtain ⟨o1, o2, o3, o4, o5, o6⟩ := h.jnzOk q hqv hqop
      have ha2ne : addrAt v q ≠ a := fun he => o3 (he ▸ List.mem_cons_self _ _)
      have ha2S : addrAt v q ∉ S := fun hm => o3 (List.mem_cons_of_mem _ hm)
      have ht5ne : addrAt v q - 5 ≠ a - 5 := by omega
      rw [haddr3 q hqv (Or.inr hqop) hqa]
      refine ⟨o1, (hmemscan3 _).mpr (Or.inl o2), ha2S, ?_, (hmemscan3 _).mpr (Or.inl o5), ?_⟩
      · rw [hgd3 _ o5]
        exact o4
      · rw [haddr3 _ o5 (Or.inl o4) ht5ne]
        exact o6
    · rw [hgd3last] at hqop
      refine ⟨by rw [haddrq]; omega, ?_, ?_, ?_, ?_, ?_⟩
      · rw [haddrq]
        rcases Nat.lt_or_ge a v.length with halt | hage
        · have hstepa : a - 5 + stepSize (v.getD (a - 5) 0) = a := by
            rw [haop, stepSize_eq_five 6 (Or.inl rfl)]
            omega
          have := scan_next_mem v h.scanTotal (a - 5) hamem (by rw [hstepa]; exact halt)
          rw [hstepa] at this
          exact (hmemscan3 _).mpr (Or.inl this)
        · have : a = v.length := by omega
          exact (hmemscan3 _).mpr (Or.inr this)
      · rw [haddrq]
        exact hnotin
      · rw [haddrq, hgd3 _ hamem]
        exact haop
      · rw [haddrq]
        exact (hmemscan3 _).mpr (Or.inl hamem)
      · rw [haddrq, haddrnew]

/-- Restatement of inv_rbrack_core on the exact buffer expression the
compile loop builds for a loop-end token. -/
lemma inv_rbrack (v S : List Nat) (a : Nat) (h : Inv v (a :: S)) (h1 : a < U32)
    (h2 : (v ++ [Inst.jnz.toBc] ++ addrToLeBytes a).length < U32) :
    Inv (spliceAddr (v ++ [Inst.jnz.toBc] ++ addrToLeBytes a) a
      (v ++ [Inst.jnz.toBc] ++ addrToLeBytes a).length) S := by
  have he : v ++ [Inst.jnz.toBc] ++ addrToLeBytes a = v ++ (7 :: addrToLeBytes a) := by
    simp [Inst.toBc]
  rw [he] at h2 ⊢
  have hl : (v ++ (7 :: addrToLeBytes a)).length = v.length + 5 := by
    simp [length_addrToLeBytes]
  rw [hl] at h2
  exact inv_rbrack_core v S a h h1 h2

/-- Appending the final halt byte to an invariant-satisfying buffer with
an empty jump stack yields a buffer of the promised final shape. -/
lemma post_of_inv (v : List Nat) (h : Inv v []) : Post (v ++ [8]) := by
  have hw0 : 0 < ([8] : List Nat).length := by simp
  have hwstep : stepSize (([8] : List Nat).getD 0 0) = ([8] : List Nat).length := by
    simp only [List.getD_cons_zero, List.length_singleton]
    exact stepSize_eq_one 8 (by omega) (by omega)
  have hsc := append_block_scan v [8] h.scanTotal hw0 hwstep
  have hlen : (v ++ [8]).length = v.length + 1 := by simp
  have hves : ∀ p, p < v.length → (v ++ [8]).getD p 0 = v.getD p 0 :=
    fun p hp => List.getD_append _ _ 0 p hp
  have hlast : (v ++ [8]).getD v.length 0 = 8 := by
    rw [getD_append_self]
    rfl
  have hmemscan : ∀ p, p ∈ scanFrom (v ++ [8]) 0 ↔ p ∈ scanFrom v 0 ∨ p = v.length := by
    intro p
    rw [hsc.1]
    simp
  have hmemv : ∀ p, p ∈ scanFrom v 0 → p < v.length :=
    fun p hp => mem_scanFromAux_lt v v.length 0 p hp
  refine ⟨by simp, ?_, ?_, ?_, ?_, ?_, ?_⟩
  · rw [hsc.2, hlen]
    simp
  · rw [hlen]
    have he : v.length + 1 - 1 = v.length := by omega
    rw [he]
    exact hlast
  · intro p hpmem hp8
    rcases (hmemscan p).mp hpmem with hpv | rfl
    · rw [hves p (hmemv p hpv)] at hp8
      have := h.opcodeLt p hpv
      omega
    · rw [hlen]
      omega
  · intro p hpmem
    rcases (hmemscan p).mp hpmem with hpv | rfl
    · rw [hves p (hmemv p hpv)]
      have := h.opcodeLt p hpv
      omega
    · rw [hlast]
  · intro p hpmem hpop
    rcases (hmemscan p).mp hpmem with hpv | rfl
    · rw [hves p (hmemv p hpv)] at hpop
      obtain ⟨o1, o2, o3, o4, o5⟩ := h.jzOk p hpv hpop (by simp)
      have ht5 : p + 5 ≤ v.length :=
        jump_bytes_inside v h.scanTotal p hpv (Or.inl hpop)
      have haddr : addrAt (v ++ [8]) p = addrAt v p := addrAt_append v [8] p ht5
      have htle : addrAt v p ≤ v.length := by
        rcases o2 with h2 | h2
        · exact le_of_lt (hmemv _ h2)
        · omega
      have haddr2 : addrAt (v ++ [8]) (addrAt v p - 5) = addrAt v (addrAt v p - 5) :=
        addrAt_append v [8] _ (by omega)
      rw [haddr, haddr2]
      refine ⟨by omega, ?_, o1, ?_, (hmemscan _).mpr (Or.inl o4), o5⟩
      · rcases o2 with h2 | h2
        · exact (hmemscan _).mpr (Or.inl h2)
        · exact (hmemscan _).mpr (Or.inr h2)
      · rw [hves _ (by have := hmemv _ o4; omega)]
        exact o3
    · rw [hlast] at hpop
      omega
  · intro q hqmem hqop
    rcases (hmemscan q).mp hqmem with hqv | rfl
    · rw [hves q (hmemv q hqv)] at hqop
      obtain ⟨o1, o2, o3, o4, o5, o6⟩ := h.jnzOk q hqv hqop
      have hq5 : q + 5 ≤ v.length :=
        jump_bytes_inside v h.scanTotal q hqv (Or.inr hqop)
      have haddr : addrAt (v ++ [8]) q = addrAt v q := addrAt_append v [8] q hq5
      have hale : addrAt v q < v.length := hmemv _ o2
      have haddr2 : addrAt (v ++ [8]) (addrAt v q - 5) = addrAt v (addrAt v q - 5) :=
        addrAt_append v [8] _ (by omega)
      rw [haddr, haddr2]
      refine ⟨by omega, (hmemscan _).mpr (Or.inl o2), o1, ?_, (hmemscan _).mpr (Or.inl o5), o6⟩
      rw [hves _ (by have := hmemv _ o5; omega)]
      exact o4
    · rw [hlast] at hqop
      omega

/-- The compile loop starting from an invariant-satisfying state only
ever returns buffers of the promised final shape. -/
lemma compileAux_post :
    ∀ (ts : List Token) (v S bc : List Nat), Inv v S →
      compileAux ts v S = .ok bc → Post bc := by
  intro ts
  induction ts with
  | nil =>
    intro v S bc hInv hc
    cases S with
    | nil =>
      simp only [compileAux] at hc
      injection hc with hc
      subst hc
      exact post_of_inv v hInv
    | cons b S' => simp [compileAux] at hc
  | cons t ts ih =>
    intro v S bc hInv hc
    cases t with
    | rAngle =>
      simp only [compileAux] at hc
      exact ih _ _ bc (inv_append_simple v S 0 (by omega) hInv) hc
    | lAngle =>
      simp only [compileAux] at hc
      exact ih _ _ bc (inv_append_simple v S 1 (by omega) hInv) hc
    | plus =>
      simp only [compileAux] at hc
      exact ih _ _ bc (inv_append_simple v S 2 (by omega) hInv) hc
    | minus =>
      simp only [compileAux] at hc
      exact ih _ _ bc (inv_append_simple v S 3 (by omega) hInv) hc
    | dot =>
      simp only [compileAux] at hc
      exact ih _ _ bc (inv_append_simple v S 4 (by omega) hInv) hc
    | comma =>
      simp only [compileAux] at hc
      exact ih _ _ bc (inv_append_simple v S 5 (by omega) hInv) hc
    | comment =>
      simp only [compileAux] at hc
      exact ih _ _ bc hInv hc
    | lBrack =>
      simp only [compileAux] at hc
      have he : v ++ [Inst.jz.toBc] ++ [42, 42, 42, 42] = v ++ [6, 42, 42, 42, 42] := by
        simp [Inst.toBc]
      rw [he] at hc
      have hl : (v ++ [6, 42, 42, 42, 42]).length = v.length + 5 := by simp
      rw [hl] at hc
      exact ih _ _ bc (inv_append_lbrack v S hInv) hc
    | rBrack =>
      cases S with
      | nil => simp [compileAux] at hc
      | cons a S' =>
        simp only [compileAux] at hc
        by_cases hha : a < U32
        · rw [if_pos hha] at hc
          by_cases hhl : (v ++ [Inst.jnz.toBc] ++ addrToLeBytes a).length < U32
          · rw [if_pos hhl] at hc
            exact ih _ _ bc (inv_rbrack v S' a hInv hha hhl) hc
          · rw [if_neg hhl] at hc
            exact absurd hc (by simp)
        · rw [if_neg hha] at hc
          exact absurd hc (by simp)

/-- The starting state of the compile loop satisfies the invariant. -/
lemma inv_initial : Inv ([] : List Nat) [] := by
  refine ⟨rfl, ?_, ?_, List.Pairwise.nil, ?_, ?_⟩ <;>
    intro p hp <;> simp [scanFrom, scanFromAux] at hp

/-- Every buffer compile returns has the promised final shape. -/
lemma compile_post (ts : List Token) (bc : List Nat) (h : compile ts = .ok bc) : Post bc :=
  compileAux_post ts [] [] bc inv_initial h

/-! ### Tape growth facts -/

lemma growTape_length_lower (d : List Nat) (p : Nat) : p + 1 ≤ (growTape d p).length := by
  unfold growTape
  split
  · simp only [List.length_append, List.length_replicate]
    omega
  · omega

lemma growTape_length_mono (d : List Nat) (p : Nat) : d.length ≤ (growTape d p).length := by
  unfold growTape
  split
  · simp only [List.length_append, List.length_replicate]
    omega
  · omega

lemma growTape_take (d : List Nat) (p : Nat) : (growTape d p).take d.length = d := by
  unfold growTape
  split
  · rw [List.take_left]
  · rw [List.take_length]

/-- Every cell the growth adds holds zero: past the preserved prefix the
grown tape is exactly a block of zeros. -/
lemma growTape_drop (d : List Nat) (p : Nat) :
    (growTape d p).drop d.length = List.replicate ((growTape d p).length - d.length) 0 := by
  unfold growTape
  split
  · rw [List.drop_left]
    congr 1
    simp only [List.length_append, List.length_replicate]
    omega
  · rw [List.drop_length]
    simp

/-- When growth actually happens the tape is resized to exactly
pointer + 1 entries (resize(ptr + 1, 0) in deref / deref_mut). -/
lemma growTape_length_grow (d : List Nat) (p : Nat) (h : d.length ≤ p) :
    (growTape d p).length = p + 1 := by
  unfold growTape
  rw [if_pos h]
  simp only [List.length_append, List.length_replicate]
  omega

/-- Every non-crashing outcome of one dispatch round carries a tape at
least as long as the incoming one. -/
lemma step_data_mono (bc : List Nat) (s t : EngineState)
    (h : step bc s = .cont t ∨ step bc s = .halted t ∨ step bc s = .inputFail t) :
    s.data.length ≤ t.data.length := by
  have hg := growTape_length_mono s.data s.ptr
  unfold step at h
  repeat' split at h
  all_goals
    rcases h with h | h | h <;>
      first
        | exact StepResult.noConfusion h
        | (rw [StepResult.cont.injEq] at h; subst h; simp [List.length_set, hg])
        | (rw [StepResult.halted.injEq] at h; subst h; simp [List.length_set, hg])
        | (rw [StepResult.inputFail.injEq] at h; subst h; simp [List.length_set, hg])

/-- Over any number of dispatch rounds the tape length never decreases. -/
lemma runFuel_data_mono (bc : List Nat) :
    ∀ (n : Nat) (s t : EngineState), stateOf (runFuel bc n s) = some t →
      s.data.length ≤ t.data.length := by
  intro n
  induction n with
  | zero =>
    intro s t h
    simp only [runFuel, stateOf, Option.some.injEq] at h
    subst h
    exact le_refl _
  | succ n ih =>
    intro s t h
    simp only [runFuel] at h
    rcases hs : step bc s with u | u | u | _ <;> rw [hs] at h
    · exact le_trans (step_data_mono bc s u (Or.inl hs)) (ih u t h)
    · simp only [stateOf, Option.some.injEq] at h
      subst h
      exact step_data_mono bc s _ (Or.inr (Or.inl hs))
    · simp only [stateOf, Option.some.injEq] at h
      subst h
      exact step_data_mono bc s _ (Or.inr (Or.inr hs))
    · simp [stateOf] at h

/-! ### Running a block of increment instructions -/

lemma getD_replicate (n i x : Nat) (h : i < n) : (List.replicate n x).getD i 0 = x := by
  rw [List.getD_eq_getElem _ _ (by simpa using h)]
  simp

/-- One dispatch round on an increment opcode. -/
lemma step_inc (bc : List Nat) (s : EngineState) (hc : s.cursor < bc.length)
    (hop : bc.getD s.cursor 0 = 2) :
    step bc s = .cont { s with
      data := (growTape s.data s.ptr).set s.ptr
        (((growTape s.data s.ptr).getD s.ptr 0 + 1) % 256),
      cursor := (s.cursor + 1) % USIZE } := by
  unfold step
  rw [if_pos hc, hop]
  rfl

/-- One dispatch round on a halt opcode. -/
lemma step_halt (bc : List Nat) (s : EngineState) (hc : s.cursor < bc.length)
    (hop : bc.getD s.cursor 0 = 8) :
    step bc s = .halted s := by
  unfold step
  rw [if_pos hc, hop]
  rfl

/-- The compile loop turns a block of increment tokens into the same
number of increment opcodes. -/
lemma compileAux_replicate_plus :
    ∀ (n : Nat) (ts : List Token) (v S : List Nat),
      compileAux (List.replicate n Token.plus ++ ts) v S =
        compileAux ts (v ++ List.replicate n 2) S := by
  intro n
  induction n with
  | zero =>
    intro ts v S
    simp
  | succ n ih =>
    intro ts v S
    rw [List.replicate_succ, List.cons_append]
    simp only [compileAux]
    rw [ih ts (v ++ [Inst.inc.toBc]) S]
    have he : (v ++ [Inst.inc.toBc]) ++ List.replicate n 2 = v ++ List.replicate (n + 1) 2 := by
      rw [List.append_assoc, List.replicate_succ]
      rfl
    rw [he]

/-- A run with positive fuel whose first round continues proceeds from
the successor state with one unit of fuel spent. -/
lemma runFuel_cont (bc : List Nat) (n : Nat) (s t : EngineState)
    (h : step bc s = .cont t) : runFuel bc (n + 1) s = runFuel bc n t := by
  simp only [runFuel, h]

/-- A run with positive fuel whose first round halts reports the halt. -/
lemma runFuel_halt_eq (bc : List Nat) (n : Nat) (s : EngineState)
    (h : step bc s = .halted s) : runFuel bc (n + 1) s = .halted s := by
  simp only [runFuel, h]

/-- Executing the all-increments byte-code from any cursor position
inside the increment block adds one to the cell per instruction, modulo
256, and halts at the final halt opcode. -/
lemma runFuel_plus (m : Nat) (hm : m < USIZE) :
    ∀ (c j x : Nat), j + c = m → x < 256 →
      runFuel (List.replicate m 2 ++ [8]) (c + 1)
          { cursor := j, ptr := 0, data := [x], inputs := [], output := [] } =
        .halted { cursor := m, ptr := 0, data := [(x + c) % 256], inputs := [], output := [] } := by
  intro c
  induction c with
  | zero =>
    intro j x hj hx
    have hj2 : j = m := by omega
    have hop : (List.replicate m 2 ++ [8]).getD j 0 = 8 := by
      rw [hj2, List.getD_append_right _ _ 0 m (by simp)]
      simp
    rw [runFuel_halt_eq _ 0 _ (step_halt _ _ (by simp; omega) hop)]
    have hx0 : (x + 0) % 256 = x := by omega
    rw [hx0, hj2]
  | succ c ihc =>
    intro j x hj hx
    have hjm : j < m := by omega
    have hop : (List.replicate m 2 ++ [8]).getD j 0 = 2 := by
      rw [List.getD_append _ _ 0 j (by simpa using hjm)]
      exact getD_replicate m j 2 hjm
    have hcur : (j + 1) % USIZE = j + 1 := Nat.mod_eq_of_lt (by omega)
    have hstep : step (List.replicate m 2 ++ [8])
        { cursor := j, ptr := 0, data := [x], inputs := [], output := [] } =
        .cont { cursor := j + 1, ptr := 0, data := [(x + 1) % 256],
                inputs := [], output := [] } := by
      rw [step_inc _ _ (by simp; omega) hop]
      simp [growTape, hcur]
    rw [runFuel_cont _ (c + 1) _ _ hstep,
      ihc (j + 1) ((x + 1) % 256) (by omega) (by omega)]
    have hmod : ((x + 1) % 256 + c) % 256 = (x + (c + 1)) % 256 := by omega
    rw [hmod]

/-! ### Failure paths of the compile loop -/

lemma countTok_cons (tk t : Token) (ts : List Token) :
    countTok tk (t :: ts) = countTok tk ts + if t = tk then 1 else 0 := by
  unfold countTok
  simp [List.count_cons]

/-- One unfolding of the compile loop at a loop-start token. -/
lemma compileAux_lbrack_step (rest : List Token) (v S : List Nat) :
    compileAux (Token.lBrack :: rest) v S =
      compileAux rest (v ++ [Inst.jz.toBc] ++ [42, 42, 42, 42])
        ((v ++ [Inst.jz.toBc] ++ [42, 42, 42, 42]).length :: S) := rfl

/-- One unfolding of the compile loop at a loop-end token with a
non-empty jump stack. -/
lemma compileAux_rbrack_step (rest : List Token) (v S : List Nat) (a : Nat) :
    compileAux (Token.rBrack :: rest) v (a :: S) =
      if a < U32 then
        if (v ++ [Inst.jnz.toBc] ++ addrToLeBytes a).length < U32 then
          compileAux rest (spliceAddr (v ++ [Inst.jnz.toBc] ++ addrToLeBytes a) a
            (v ++ [Inst.jnz.toBc] ++ addrToLeBytes a).length) S
        else .error .addressOverflow
      else .error .addressOverflow := rfl

/-- If at some point of the remaining stream the loop-end tokens seen
outnumber the loop-start tokens seen plus the currently open loops, and
no jump offset can overflow the 32-bit address field on the way there,
the loop fails with the empty-stack pop of src/compiler.rs line 125. -/
lemma compileAux_excess :
    ∀ (ts : List Token) (v S : List Nat),
      (∀ b ∈ S, 5 ≤ b ∧ b ≤ v.length) →
      v.length + 5 * ts.length < U32 →
      (∃ k, countTok Token.lBrack (ts.take k) + S.length <
        countTok Token.rBrack (ts.take k)) →
      compileAux ts v S = .error .unmatchedLoopEnd := by
  intro ts
  induction ts with
  | nil =>
    intro v S hS hsz hex
    obtain ⟨k, hk⟩ := hex
    simp [countTok] at hk
  | cons t ts ih =>
    intro v S hS hsz hex
    obtain ⟨k, hk⟩ := hex
    cases k with
    | zero => simp [countTok] at hk
    | succ k =>
      rw [List.take_succ_cons, countTok_cons, countTok_cons] at hk
      simp only [List.length_cons] at hsz
      cases t with
      | rAngle =>
        simp only [compileAux]
        refine ih _ _ (fun b hb => ?_) (by simp; omega) ⟨k, ?_⟩
        · have := hS b hb
          simp only [List.length_append, List.length_singleton]
          omega
        · simp at hk
          omega
      | lAngle =>
        simp only [compileAux]
        refine ih _ _ (fun b hb => ?_) (by simp; omega) ⟨k, ?_⟩
        · have := hS b hb
          simp only [List.length_append, List.length_singleton]
          omega
        · simp at hk
          omega
      | plus =>
        simp only [compileAux]
        refine ih _ _ (fun b hb => ?_) (by simp; omega) ⟨k, ?_⟩
        · have := hS b hb
          simp only [List.length_append, List.length_singleton]
          omega
        · simp at hk
          omega
      | minus =>
        simp only [compileAux]
        refine ih _ _ (fun b hb => ?_) (by simp; omega) ⟨k, ?_⟩
        · have := hS b hb
          simp only [List.length_append, List.length_singleton]
          omega
        · simp at hk
          omega
      | dot =>
        simp only [compileAux]
        refine ih _ _ (fun b hb => ?_) (by simp; omega) ⟨k, ?_⟩
        · have := hS b hb
          simp only [List.length_append, List.length_singleton]
          omega
        · simp at hk
          omega
      | comma =>
        simp only [compileAux]
        refine ih _ _ (fun b hb => ?_) (by simp; omega) ⟨k, ?_⟩
        · have := hS b hb
          simp only [List.length_append, List.length_singleton]
          omega
        · simp at hk
          omega
      | comment =>
        simp only [compileAux]
        refine ih _ _ hS (by omega) ⟨k, ?_⟩
        simp at hk
        omega
      | lBrack =>
        simp only [compileAux]
        have hl : (v ++ [Inst.jz.toBc] ++ [42, 42, 42, 42]).length = v.length + 5 := by simp
        refine ih _ _ (fun b hb => ?_) (by rw [hl]; omega) ⟨k, ?_⟩
        · rcases List.mem_cons.mp hb with rfl | hb2
          · rw [hl]
            omega
          · have := hS b hb2
            rw [hl]
            omega
        · simp only [List.length_cons]
          simp at hk
          omega
      | rBrack =>
        cases S with
        | nil =>
          simp only [compileAux]
        | cons a S2 =>
          simp only [compileAux]
          have ha := hS a (List.mem_cons_self _ _)
          have hv2l : (v ++ [Inst.jnz.toBc] ++ addrToLeBytes a).length = v.length + 5 := by
            simp [length_addrToLeBytes]
          rw [if_pos (show a < U32 by omega)]
          rw [if_pos (show (v ++ [Inst.jnz.toBc] ++ addrToLeBytes a).length < U32 by
            rw [hv2l]; omega)]
          have hv3l : (spliceAddr (v ++ [Inst.jnz.toBc] ++ addrToLeBytes a) a
              (v ++ [Inst.jnz.toBc] ++ addrToLeBytes a).length).length = v.length + 5 := by
            rw [spliceAddr_length _ _ _ (by omega) (by rw [hv2l]; omega), hv2l]
          refine ih _ _ (fun b hb => ?_) (by rw [hv3l]; omega) ⟨k, ?_⟩
          · have := hS b (List.mem_cons_of_mem _ hb)
            rw [hv3l]
            omega
          · simp only [List.length_cons] at hk
            simp at hk
            omega

/-- A block of loop-start tokens pushes the offsets of its placeholders;
the offset just past the last placeholder ends up on top of the jump
stack. -/
lemma compileAux_replicate_lbrack :
    ∀ (n : Nat) (ts : List Token) (v S : List Nat),
      ∃ (v2 S2 : List Nat),
        compileAux (List.replicate (n + 1) Token.lBrack ++ ts) v S =
          compileAux ts v2 ((v.length + 5 * (n + 1)) :: S2) := by
  intro n
  induction n with
  | zero =>
    intro ts v S
    refine ⟨v ++ [Inst.jz.toBc] ++ [42, 42, 42, 42], S, ?_⟩
    rw [List.replicate_one, List.singleton_append, compileAux_lbrack_step]
    have hl : (v ++ [Inst.jz.toBc] ++ [42, 42, 42, 42]).length = v.length + 5 * (0 + 1) := by
      simp
    rw [hl]
  | succ n ih =>
    intro ts v S
    rw [List.replicate_succ, List.cons_append, compileAux_lbrack_step]
    obtain ⟨v2, S2, he⟩ := ih ts (v ++ [Inst.jz.toBc] ++ [42, 42, 42, 42])
      ((v ++ [Inst.jz.toBc] ++ [42, 42, 42, 42]).length :: S)
    refine ⟨v2, S2, ?_⟩
    rw [he]
    have hl : (v ++ [Inst.jz.toBc] ++ [42, 42, 42, 42]).length + 5 * (n + 1) =
        v.length + 5 * (n + 1 + 1) := by
      simp only [List.length_append, List.length_singleton, List.length_cons, List.length_nil]
      omega
    rw [hl]

/-- On the stream of 2^30 loop-starts followed by 2^30 + 1 loop-ends,
the first loop-end pops the offset 5 * 2^30, which does not fit the
32-bit address field, so compile fails with the overflow error of
src/compiler.rs line 128 before any empty-stack pop is reached. -/
lemma compile_bigTs : compile bigTs = .error .addressOverflow := by
  unfold compile bigTs
  rw [show (1073741824 : Nat) = 1073741823 + 1 from by norm_num]
  obtain ⟨v2, S2, he⟩ := compileAux_replicate_lbrack 1073741823
    (List.replicate 1073741825 Token.rBrack) [] []
  rw [he]
  rw [show (1073741825 : Nat) = 1073741824 + 1 from by norm_num, List.replicate_succ,
    compileAux_rbrack_step]
  rw [if_neg (show ¬ (List.length ([] : List Nat) + 5 * (1073741823 + 1) < U32) from by
    norm_num [U32])]

lemma bigTs_excess : countTok Token.lBrack bigTs < countTok Token.rBrack bigTs := by
  unfold bigTs countTok
  rw [List.count_append, List.count_append]
  simp only [List.count_replicate, beq_iff_eq]
  rw [if_neg (show ¬ (Token.rBrack = Token.lBrack) from by decide),
    if_neg (show ¬ (Token.lBrack = Token.rBrack) from by decide)]
  norm_num

/-- Each non-failing iteration of the compile loop preserves the value
the loop computes. -/
lemma compStep_eval (x y : List Token × List Nat × List Nat) (h : CompStep x y) :
    evalComp x = evalComp y := by
  cases h with
  | rAngle ts v S => rfl
  | lAngle ts v S => rfl
  | plus ts v S => rfl
  | minus ts v S => rfl
  | dot ts v S => rfl
  | comma ts v S => rfl
  | comment ts v S => rfl
  | lBrack ts v S => rfl
  | rBrack ts v S a h1 h2 =>
    show compileAux (Token.rBrack :: ts) v (a :: S) = _
    rw [compileAux_rbrack_step, if_pos h1, if_pos h2]
    rfl

/-- Any number of compile-loop iterations preserves the computed
value. -/
lemma compSteps_eval (x y : List Token × List Nat × List Nat)
    (h : Relation.ReflTransGen CompStep x y) : evalComp x = evalComp y := by
  induction h with
  | refl => rfl
  | tail _ hstep ih => exact ih.trans (compStep_eval _ _ hstep)

/-! ### The claims -/

/-- C1: for every token stream on which compile succeeds, each emitted
jump-if-zero instruction's target t points just past the address field
of a jump-if-nonzero instruction (at offset t - 5) whose own target is
the first instruction of the loop body, the byte just past the
jump-if-zero's address field (offset p + 5); symmetrically, each
jump-if-nonzero's target a is the byte just past the placeholder of a
jump-if-zero at offset a - 5 pointing forward to p + 5.  The mutual
pointing identifies the matching pair produced by the jump-resolution
stack.  The "[[]]" instance is checked in the witness theorem. -/
theorem compile_jump_targets (ts : List Token) (bc : List Nat) (h : compile ts = .ok bc)
    (p : Nat) (hp : p ∈ scanFrom bc 0) :
    (bc.getD p 0 = Inst.jz.toBc →
      5 ≤ addrAt bc p ∧ bc.getD (addrAt bc p - 5) 0 = Inst.jnz.toBc ∧
        (addrAt bc p - 5) ∈ scanFrom bc 0 ∧ addrAt bc (addrAt bc p - 5) = p + 5) ∧
    (bc.getD p 0 = Inst.jnz.toBc →
      5 ≤ addrAt bc p ∧ bc.getD (addrAt bc p - 5) 0 = Inst.jz.toBc ∧
        (addrAt bc p - 5) ∈ scanFrom bc 0 ∧ addrAt bc (addrAt bc p - 5) = p + 5 ∧
        addrAt bc p ∈ scanFrom bc 0) := by
  have hpost := compile_post ts bc h
  constructor
  · intro h6
    obtain ⟨o1, o2, o3, o4, o5, o6⟩ := hpost.jzOk p hp h6
    exact ⟨o3, o4, o5, o6⟩
  · intro h7
    obtain ⟨o1, o2, o3, o4, o5, o6⟩ := hpost.jnzOk p hp h7
    exact ⟨o3, o4, o5, o6, o2⟩

/-- Witness for C1: compiling "[[]]" succeeds, its four jump
instructions decode to the nested targets 20, 15, 10 and 5, and the
instantiated conclusion holds for the outer jump-if-zero at offset 0. -/
theorem compile_jump_targets_witness :
    compile (lexStr "[[]]") = .ok nestedBc ∧
      (5 ≤ addrAt nestedBc 0 ∧ nestedBc.getD (addrAt nestedBc 0 - 5) 0 = Inst.jnz.toBc ∧
        (addrAt nestedBc 0 - 5) ∈ scanFrom nestedBc 0 ∧
        addrAt nestedBc (addrAt nestedBc 0 - 5) = 0 + 5) ∧
      addrAt nestedBc 0 = 20 ∧ addrAt nestedBc 5 = 15 ∧
      addrAt nestedBc 10 = 10 ∧ addrAt nestedBc 15 = 5 :=
  ⟨rfl, (compile_jump_targets (lexStr "[[]]") nestedBc rfl 0 (by decide)).1 rfl,
    rfl, rfl, rfl, rfl⟩

/-- C2: the cell read and write primitives first grow the tape so that
its length is at least pointer + 1 (exactly pointer + 1 whenever growth
happens), keeping every existing cell and filling every new entry with
zero, so the accessed index is always in range; and over any run the
tape length never decreases. -/
theorem engine_tape_invariant (bc : List Nat) (n : Nat) (s t : EngineState)
    (h : stateOf (runFuel bc n s) = some t) :
    s.data.length ≤ t.data.length ∧
      ∀ (d : List Nat) (p : Nat), p + 1 ≤ (growTape d p).length ∧
        d.length ≤ (growTape d p).length ∧ (growTape d p).take d.length = d ∧
        (growTape d p).drop d.length = List.replicate ((growTape d p).length - d.length) 0 ∧
        (d.length ≤ p → (growTape d p).length = p + 1) :=
  ⟨runFuel_data_mono bc n s t h,
    fun d p => ⟨growTape_length_lower d p, growTape_length_mono d p, growTape_take d p,
      growTape_drop d p, growTape_length_grow d p⟩⟩

/-- Witness for C2: a two-step run of the compiled form of "+" grows
the tape from empty to one cell. -/
theorem engine_tape_invariant_witness :
    (initState []).data.length ≤
      ({ cursor := 1, ptr := 0, data := [1], inputs := [], output := [] } :
        EngineState).data.length :=
  (engine_tape_invariant [2, 8] 3 (initState [])
    { cursor := 1, ptr := 0, data := [1], inputs := [], output := [] } rfl).1

/-- C3 (amended): on a token stream in which, at some point of the
left-to-right pass, the loop-end tokens seen outnumber the loop-start
tokens seen, compile fails with UnmatchedLoopEnd, provided no jump
offset overflows the 32-bit address field on the way there (the bound
5 * length < 2^32 guarantees this); without that proviso an
AddressOverflow failure can pre-empt the empty-stack pop, see the
counterexample theorem. -/
theorem compile_unmatched_loop_end (ts : List Token)
    (hsz : 5 * ts.length < U32)
    (hex : ∃ k, countTok Token.lBrack (ts.take k) < countTok Token.rBrack (ts.take k)) :
    compile ts = .error .unmatchedLoopEnd := by
  obtain ⟨k, hk⟩ := hex
  exact compileAux_excess ts [] [] (by simp) (by simpa using hsz) ⟨k, by simpa using hk⟩

/-- Counterexample to C3 as stated: on the stream of 2^30 loop-starts
followed by 2^30 + 1 loop-ends, the loop-end count exceeds the
loop-start count, yet compile fails with AddressOverflow, not
UnmatchedLoopEnd, because the first loop-end already pops the offset
5 * 2^30 which does not fit the 4-byte address field. -/
theorem compile_unmatched_loop_end_counterexample :
    countTok Token.lBrack (bigTs.take bigTs.length) <
      countTok Token.rBrack (bigTs.take bigTs.length) ∧
      compile bigTs = .error .addressOverflow ∧
      compile bigTs ≠ .error .unmatchedLoopEnd := by
  refine ⟨?_, compile_bigTs, ?_⟩
  · rw [List.take_length]
    exact bigTs_excess
  · rw [compile_bigTs]
    simp

/-- Witness for C3 (amended) at the one-token stream "]". -/
theorem compile_unmatched_loop_end_witness :
    compile [Token.rBrack] = .error .unmatchedLoopEnd :=
  compile_unmatched_loop_end [Token.rBrack] (by norm_num [U32]) ⟨1, by decide⟩

/-- C4: whenever the compile pass reaches end-of-input with the
jump-resolution stack still non-empty (at least one loop-start
unmatched), compile fails with UnmatchedLoopStart. -/
theorem compile_unmatched_loop_start (ts : List Token) (v S : List Nat)
    (h : Relation.ReflTransGen CompStep (ts, [], []) ([], v, S)) (hne : S ≠ []) :
    compile ts = .error .unmatchedLoopStart := by
  have he := compSteps_eval _ _ h
  unfold evalComp at he
  simp only at he
  unfold compile
  rw [he]
  cases S with
  | nil => exact absurd rfl hne
  | cons b S2 => rfl

/-- Witness for C4 at the one-token stream "[". -/
theorem compile_unmatched_loop_start_witness :
    compile [Token.lBrack] = .error .unmatchedLoopStart :=
  compile_unmatched_loop_start [Token.lBrack]
    ([] ++ [Inst.jz.toBc] ++ [42, 42, 42, 42])
    (([] ++ [Inst.jz.toBc] ++ [42, 42, 42, 42]).length :: [])
    (Relation.ReflTransGen.single (CompStep.lBrack [] [] []))
    (by simp)

/-- C5: compiling the empty token stream succeeds and returns a buffer
of length exactly 1 whose single byte is the halt opcode. -/
theorem compile_empty_halt :
    compile (lexStr "") = .ok [Inst.halt.toBc] ∧ ([Inst.halt.toBc] : List Nat).length = 1 :=
  ⟨rfl, rfl⟩

/-- C6: every buffer compile returns is non-empty, its last byte is the
halt opcode, and halt appears at no other instruction position. -/
theorem compile_halt_unique (ts : List Token) (bc : List Nat) (h : compile ts = .ok bc) :
    bc ≠ [] ∧ bc.getD (bc.length - 1) 0 = Inst.halt.toBc ∧
      ∀ p ∈ scanFrom bc 0, bc.getD p 0 = Inst.halt.toBc → p = bc.length - 1 := by
  have hpost := compile_post ts bc h
  exact ⟨hpost.nonempty, hpost.lastHalt, hpost.haltUnique⟩

/-- Witness for C6 at the program "+". -/
theorem compile_halt_unique_witness :
    compile (lexStr "+") = .ok [2, 8] ∧ ([2, 8] : List Nat) ≠ [] ∧
      ([2, 8] : List Nat).getD 1 0 = Inst.halt.toBc :=
  ⟨rfl, (compile_halt_unique (lexStr "+") [2, 8] rfl).1,
    (compile_halt_unique (lexStr "+") [2, 8] rfl).2.1⟩

/-- C7: cell arithmetic is modulo 256 in both directions: the compiled
form of "-" run from a zero-initialized cell halts with that cell at
255, and the compiled form of 256 increment tokens run from a
zero-initialized cell halts with the cell back at 0. -/
theorem cell_arithmetic_wraps :
    (compile (lexStr "-") = .ok [3, 8] ∧
      runFuel [3, 8] 2 (initState []) =
        .halted { cursor := 1, ptr := 0, data := [255], inputs := [], output := [] } ∧
      ([255] : List Nat).getD 0 0 = 255) ∧
    (compile plusProg = .ok plusBc ∧
      runFuel plusBc 257 (initState []) =
        .halted { cursor := 256, ptr := 0, data := [0], inputs := [], output := [] } ∧
      ([0] : List Nat).getD 0 0 = 0) := by
  refine ⟨⟨rfl, rfl, rfl⟩, ⟨?_, ?_, rfl⟩⟩
  · unfold plusProg plusBc compile
    rw [show List.replicate 256 Token.plus =
      List.replicate 256 Token.plus ++ ([] : List Token) from by simp]
    rw [compileAux_replicate_plus 256 [] [] []]
    rfl
  · have hstep1 : step plusBc (initState []) =
        .cont { cursor := 1, ptr := 0, data := [1], inputs := [], output := [] } := rfl
    have h1 : runFuel plusBc 257 (initState []) =
        runFuel plusBc 256 { cursor := 1, ptr := 0, data := [1], inputs := [], output := [] } :=
      runFuel_cont plusBc 256 _ _ hstep1
    rw [h1]
    have hbc : plusBc = List.replicate 256 2 ++ [8] := rfl
    rw [hbc]
    have h2 := runFuel_plus 256 (by norm_num [USIZE]) 255 1 1 (by omega) (by omega)
    rw [show (256 : Nat) = 255 + 1 from by norm_num, h2]

/-- C8: running the compiled form of ",[.,]" with an input capability
yielding byte 65, then byte 66, then signaling exhaustion, outputs 65
then 66 in that order, and the third input request aborts the run (the
capability's failure is the final outcome, with no further output). -/
theorem run_input_exhaustion :
    compile (lexStr ",[.,]") = .ok echoBc ∧
      runFuel echoBc 20 (initState [65, 66]) =
        .inputFail { cursor := 7, ptr := 0, data := [66], inputs := [], output := [65, 66] } ∧
      ({ cursor := 7, ptr := 0, data := [66], inputs := [], output := [65, 66] } :
        EngineState).output = [65, 66] :=
  ⟨rfl, rfl, rfl⟩

/-- C10: for every token stream on which compile succeeds, the 4-byte
address after each jump opcode is an offset strictly inside the buffer
that falls on an instruction boundary of the walk from offset 0. -/
theorem compile_jump_addr_bounds (ts : List Token) (bc : List Nat) (h : compile ts = .ok bc)
    (p : Nat) (hp : p ∈ scanFrom bc 0)
    (hop : bc.getD p 0 = Inst.jz.toBc ∨ bc.getD p 0 = Inst.jnz.toBc) :
    addrAt bc p < bc.length ∧ addrAt bc p ∈ scanFrom bc 0 := by
  have hpost := compile_post ts bc h
  rcases hop with h6 | h7
  · obtain ⟨o1, o2, _⟩ := hpost.jzOk p hp h6
    exact ⟨o1, o2⟩
  · obtain ⟨o1, o2, _⟩ := hpost.jnzOk p hp h7
    exact ⟨o1, o2⟩

/-- Witness for C10 at the program "[]". -/
theorem compile_jump_addr_bounds_witness :
    compile (lexStr "[]") = .ok pairBc ∧
      addrAt pairBc 0 < pairBc.length ∧ addrAt pairBc 0 ∈ scanFrom pairBc 0 :=
  ⟨rfl, compile_jump_addr_bounds (lexStr "[]") pairBc rfl 0 (by decide) (Or.inl rfl)⟩

end FastBfi
